import Mathlib

/-!
# mygopkg: vanity import path page generator

A shallow embedding of `src/main.go`.  The program reads a JSON module mapping,
fills in default branches, renders one page per module plus an index page into a
temporary directory and swaps that directory into the output path by renames.

Modelling conventions.

* Go strings are `String`; a nil-able `*string` flag is an `Option String`.
* An error value is modelled by the context message `run` wraps it in; the text
  of the wrapped cause is left out.  A run-time panic is an outcome of its own.
* `map[string]*ModuleConfig` is an association list of `(key, pointer)` pairs,
  a nil pointer being `none`.  The list order stands for the (unspecified) order
  in which Go ranges over the map; every theorem holds for every order.
* `filepath.Clean` and `filepath.Join` follow the Go standard library on Unix:
  `Clean` walks the path element by element with the same four cases and the
  same output buffer and `dotdot` index.
* The filesystem is a finite list of `(path, entry)` pairs keyed by the
  elements of the lexically cleaned path.  There are no symbolic links; relative
  paths are relative to one fixed working directory.  The flag values reach the
  system calls uncleaned in `main.go`; the model resolves them lexically, where
  the kernel walks the directories, so a path through a missing directory such
  as `nosuch/../build` resolves in the model and is refused by the kernel.
  Such a refusal is an instance of the oracle below.
* The operating system may refuse any call (permissions, devices, quotas): an
  oracle `Env.fault` says which call sites are refused.  A refused call leaves
  the filesystem as it was.
* `json.Unmarshal`, template parsing and template execution are outside the
  repository sources; they are parameters of the environment, and so are the
  name chosen by `os.MkdirTemp` and the text of `time.Now()`.  A Go timestamp
  contains no path separator; theorems that need this say so (`sep ∉ env.now.data`).
-/

namespace Mygopkg

/-! ## Data model -/

/-- Record `ModuleConfig` of `main.go`. -/
structure ModuleConfig where
  GitURL : String
  DefaultBranch : String
  Description : String
deriving DecidableEq, Repr

/-- The decoded `map[string]*ModuleConfig`: keys with nil-able record pointers. -/
abbrev Modules := List (String × Option ModuleConfig)

/-- Body of the default-branch loop for one record that is present. -/
def fillConfig (c : ModuleConfig) : ModuleConfig :=
  if c.DefaultBranch = "" then ModuleConfig.mk c.GitURL "main" c.Description else c

/-- The loop `for _, config := range modules` of `run`.  Reading
`config.DefaultBranch` through a nil pointer is a run-time panic, here `none`. -/
def fillDefaults : Modules → Option Modules
  | [] => some []
  | (_, none) :: _ => none
  | (k, some c) :: rest =>
    match fillDefaults rest with
    | none => none
    | some r => some ((k, some (fillConfig c)) :: r)

/-- Closure `modulePath` of `run`. -/
def modulePath (baseURL : String) (module : String) : String :=
  baseURL ++ "/" ++ module

/-- Closure `moduleDocURL` of `run`. -/
def moduleDocURL (baseURL : String) (module : String) : String :=
  "https://pkg.go.dev/" ++ modulePath baseURL module

/-! ## Lexical paths: `filepath.Clean` and `filepath.Join` (Unix) -/

/-- The path separator. -/
def sep : Char := '/'

/-- Split a path at every separator; the elements between separators, empty ones
included.  `Clean` walks the path element by element. -/
def splitSep : List Char → List (List Char)
  | [] => [[]]
  | c :: cs =>
    if c = sep then [] :: splitSep cs
    else
      match splitSep cs with
      | [] => [[c]]
      | e :: es => (c :: e) :: es

/-- The backtracking loop of `Clean` for a `..` element, started at write index
`w` (already decremented once): step back while `w > dotdot` and the byte at `w`
is not a separator. -/
def backtrack (out : List Char) (dotdot : Nat) : Nat → Nat
  | 0 => 0
  | w + 1 =>
    if dotdot < w + 1 ∧ out.getD (w + 1) sep ≠ sep then backtrack out dotdot w
    else w + 1

/-- The dot character. -/
def dot : Char := '.'

/-- Append a separator to the buffer when `Clean` needs one before an element:
`rooted && out.w != 1 || !rooted && out.w != 0`. -/
def addSep (rooted : Bool) (out : List Char) : List Char :=
  if (rooted ∧ out.length ≠ 1) ∨ (¬ rooted ∧ out.length ≠ 0) then out ++ [sep] else out

/-- One iteration of the `switch` in `Clean`, on the element `e`; the state is the
output buffer and the index `dotdot`.  An empty element is a separator byte, `.`
is skipped, `..` backtracks (or is kept, on a relative path that cannot
backtrack), any other element is copied. -/
def cleanElem (rooted : Bool) (st : List Char × Nat) (e : List Char) : List Char × Nat :=
  if e = [] then st
  else if e = [dot] then st
  else if e = [dot, dot] then
    if st.2 < st.1.length then
      (st.1.take (backtrack st.1 st.2 (st.1.length - 1)), st.2)
    else if rooted then st
    else
      let out := (if 0 < st.1.length then st.1 ++ [sep] else st.1) ++ [dot, dot]
      (out, out.length)
  else (addSep rooted st.1 ++ e, st.2)

/-- Go `filepath.Clean` on the characters of a path. -/
def cleanChars (path : List Char) : List Char :=
  if path = [] then [dot]
  else
    let rooted : Bool := path.head? = some sep
    let start : List Char × Nat := if rooted then ([sep], 1) else ([], 0)
    let st := (splitSep path).foldl (cleanElem rooted) start
    if st.1 = [] then [dot] else st.1

/-- Go `filepath.Clean`. -/
def Clean (path : String) : String := String.mk (cleanChars path.data)

/-- Go `filepath.Join` of two elements: the elements from the first non-empty one
on are joined with the separator and cleaned; all empty gives the empty string. -/
def Join (a b : String) : String :=
  if a ≠ "" then Clean (a ++ "/" ++ b)
  else if b ≠ "" then Clean b
  else ""

/-! ## Filesystem model -/

/-- A resolved path: the elements of the cleaned path.  An absolute path starts
with the empty element, so `/tmp/x` is `["", "tmp", "x"]`. -/
abbrev Path := List String

/-- Path resolution (no symbolic links): clean lexically and split into elements. -/
def resolve (p : String) : Path := (splitSep (cleanChars p.data)).map String.mk

/-- A filesystem entry. -/
inductive Entry where
  | dir : Entry
  | file (content : String) : Entry
deriving DecidableEq, Repr

/-- A filesystem state: the entries that exist, by resolved path. -/
abbrev FS := List (Path × Entry)

/-- Directories that always exist and cannot be renamed or removed: the working
directory (`[]` as a parent, `.`), the root (`[""]` as a parent, `/`) and paths
ending in `..`. -/
def isSpecial (p : Path) : Bool :=
  p = [] ∨ p = [""] ∨ p = ["", ""] ∨ p.getLast? = some "." ∨ p.getLast? = some ".."

/-- Entry found at a resolved path, `os.Stat`. -/
def stat (fs : FS) (p : Path) : Option Entry :=
  if isSpecial p then some Entry.dir else (fs.find? (fun x => x.1 = p)).map Prod.snd

/-- Path `p` is `d` itself or lies below it. -/
def under (d p : Path) : Bool := d.isPrefixOf p

/-- The tree at `d`: every entry at or below `d`, by its path relative to `d`.
An absent `d` has the empty tree; an empty directory has the single entry `[]`. -/
def subtree (fs : FS) (d : Path) : List (Path × Entry) :=
  fs.filterMap (fun x => if under d x.1 then some (x.1.drop d.length, x.2) else none)

/-- The paths of the regular files of a state. -/
def filesOf (fs : List (Path × Entry)) : List Path :=
  fs.filterMap (fun x => match x.2 with
    | Entry.file _ => some x.1
    | Entry.dir => none)

/-- The non-empty leading segments of a path, shortest first, the path last. -/
def ancestors (p : Path) : List Path := p.inits.tail

/-- One `Mkdir` step of `os.MkdirAll`: an existing directory is kept, a regular
file in the way is an error, a missing directory is created. -/
def mkdirStep (fs : FS) (a : Path) : Option FS :=
  match stat fs a with
  | some Entry.dir => some fs
  | some (Entry.file _) => none
  | none => some (fs ++ [(a, Entry.dir)])

/-- Model of `os.MkdirAll`: create the path and every missing parent. -/
def mkdirAll (fs : FS) (p : Path) : Option FS :=
  (ancestors p).foldlM mkdirStep fs

/-- Model of `os.Create` followed by writing `content`: the parent must be a
directory and the path must not be a directory; an existing file is replaced. -/
def create (fs : FS) (p : Path) (content : String) : Option FS :=
  if isSpecial p then none
  else if stat fs p.dropLast ≠ some Entry.dir then none
  else if stat fs p = some Entry.dir then none
  else some (fs.filter (fun x => x.1 ≠ p) ++ [(p, Entry.file content)])

/-- Model of `os.ReadFile`. -/
def readFile (fs : FS) (p : Path) : Option String :=
  match stat fs p with
  | some (Entry.file c) => some c
  | _ => none

/-- Whether a `stat` result is a regular file. -/
def isFileAt : Option Entry → Bool
  | some (Entry.file _) => true
  | _ => false

/-- Move one entry from below `old` to below `new`. -/
def rebase (old new : Path) (x : Path × Entry) : Path × Entry :=
  if under old x.1 then (new ++ x.1.drop old.length, x.2) else x

/-- Model of Go `os.Rename` on Unix.  The source must exist; Go refuses a target
that is an existing directory (`EEXIST`); renaming a file to itself does
nothing; a directory cannot move below itself; the parent of the target must be
a directory; a directory does not replace a file; nothing may exist below the
target. -/
def rename (fs : FS) (old new : Path) : Option FS :=
  if isSpecial old ∨ isSpecial new then none
  else
    match stat fs old with
    | none => none
    | some e =>
      if stat fs new = some Entry.dir then none
      else if old = new then some fs
      else if under old new then none
      else if stat fs new.dropLast ≠ some Entry.dir then none
      else if e = Entry.dir ∧ isFileAt (stat fs new) then none
      else if fs.any (fun x => under new x.1 ∧ x.1 ≠ new) then none
      else some ((fs.filter (fun x => x.1 ≠ new)).map (rebase old new))

/-- Model of `os.RemoveAll`: the entry and everything below it go; a missing path
is not an error. -/
def removeAll (fs : FS) (p : Path) : Option FS :=
  if isSpecial p then none else some (fs.filter (fun x => ¬ under p x.1))

/-- Model of `os.MkdirTemp`: the name chosen is fresh (nothing exists at or below
it) and its parent is a directory. -/
def mkdirTemp (fs : FS) (p : Path) : Option FS :=
  if isSpecial p then none
  else if fs.any (fun x => under p x.1) then none
  else if stat fs p.dropLast ≠ some Entry.dir then none
  else some (fs ++ [(p, Entry.dir)])

/-! ## The program -/

/-- What a template is executed on: the `map[string]any` built in `run`. -/
inductive Data where
  | index (baseURL : String) (modules : Modules) : Data
  | module (module : String) (config : Option ModuleConfig) : Data
deriving DecidableEq, Repr

/-- The call sites of `run` at which the operating system can refuse. -/
inductive Site where
  | readFile : Site
  | mkdirBuild : Site
  | parseTemplates : Site
  | mkdirTemp : Site
  | pageMkdir (name : String) : Site
  | pageCreate (name : String) : Site
  | renameAside : Site
  | renameInto : Site
  | renameBack : Site
  | removeBackup : Site
  | removeTmp : Site
deriving DecidableEq, Repr

/-- The environment of one run. -/
structure Env where
  /-- Call sites the operating system refuses. -/
  fault : Site → Bool
  /-- Decoder `json.Unmarshal` into the module mapping; `none` is a decode error. -/
  decode : String → Option Modules
  /-- Template execution: the bytes written and whether it succeeded. -/
  exec : String → Data → String × Bool
  /-- Name chosen by `os.MkdirTemp`. -/
  tmpDir : String
  /-- Text of `time.Now()` as `%s` prints it. -/
  now : String

/-- How `run` ends: `nil`, an error value, or a run-time panic. -/
inductive Outcome where
  | ok : Outcome
  | error (msg : String) : Outcome
  | panic : Outcome
deriving DecidableEq, Repr

/-- A system call at a call site: refused by the environment or run on the model. -/
def sys (env : Env) (s : Site) (r : Option FS) : Option FS :=
  if env.fault s then none else r

/-- Function `writeTmpTemplate` of `main.go`: the error (if any) and the state. -/
def writeTmpTemplate (env : Env) (tmpl name : String) (data : Data) (tmpDir : String)
    (fs : FS) : Option String × FS :=
  let dirPath := Join tmpDir name
  match sys env (Site.pageMkdir name) (mkdirAll fs (resolve dirPath)) with
  | none => (some "failed to create dir", fs)
  | some fs1 =>
    let r := env.exec tmpl data
    match sys env (Site.pageCreate name)
        (create fs1 (resolve (Join dirPath "index.html")) r.1) with
    | none => (some "failed to create file", fs1)
    | some fs2 => (if r.2 then none else some "template execution failed", fs2)

/-- The loop over the modules in `run` that writes the module pages; it stops at
the first error. -/
def writeModules (env : Env) (tmpDir : String) : Modules → FS → Option String × FS
  | [], fs => (none, fs)
  | (module, config) :: rest, fs =>
    match writeTmpTemplate env "module.gotmpl" module (Data.module module config) tmpDir fs with
    | (some e, fs1) => (some e, fs1)
    | (none, fs1) => writeModules env tmpDir rest fs1

/-- Name of the backup directory, `fmt.Sprintf("%s-bak-%s", *buildDir, time.Now())`. -/
def backupBuildDir (env : Env) (buildDir : String) : String :=
  buildDir ++ "-bak-" ++ env.now

/-- The publish steps at the end of `run`: the outcome and the state after each
step taken, in order: rename aside; rename into place; then the recovery rename
(if that failed) or the removal of the backup (if it worked).  The results of the
last two are ignored by the code. -/
def publish (env : Env) (buildDir : String) (fs : FS) : Outcome × List FS :=
  let out := resolve buildDir
  let bak := resolve (backupBuildDir env buildDir)
  match sys env Site.renameAside (rename fs out bak) with
  | none => (Outcome.error "failed to remove build dir", [fs])
  | some s1 =>
    match sys env Site.renameInto (rename s1 (resolve env.tmpDir) out) with
    | none =>
      (Outcome.error "failed to rename tmp dir to build dir",
        [s1, s1, (sys env Site.renameBack (rename s1 bak out)).getD s1])
    | some s2 =>
      (Outcome.ok, [s1, s2, (sys env Site.removeBackup (removeAll s2 bak)).getD s2])

/-- The deferred `os.RemoveAll(tmpDir)`; its result is ignored. -/
def cleanup (env : Env) (fs : FS) : FS :=
  (sys env Site.removeTmp (removeAll fs (resolve env.tmpDir))).getD fs

/-- The rendering part of `run`: the index page, then the module pages.  The
error (if any) carries the context `run` wraps it in. -/
def render (env : Env) (baseURL : String) (modules : Modules) (fs : FS) : Option String × FS :=
  match writeTmpTemplate env "index.gotmpl" "" (Data.index baseURL modules) env.tmpDir fs with
  | (some e, fs1) => (some ("failed to write index template: " ++ e), fs1)
  | (none, fs1) =>
    match writeModules env env.tmpDir modules fs1 with
    | (some e, fs2) => (some ("failed to write module template: " ++ e), fs2)
    | (none, fs2) => (none, fs2)

/-- The part of `run` after the temporary directory exists: render, then publish.
The deferred removal of the temporary directory runs on every path out. -/
def renderAndPublish (env : Env) (baseURL buildDir : String) (modules : Modules)
    (fs : FS) : Outcome × FS :=
  match render env baseURL modules fs with
  | (some e, s) => (Outcome.error e, cleanup env s)
  | (none, s) =>
    let r := publish env buildDir s
    (r.1, cleanup env (r.2.getLastD s))

/-- What `run` has once the temporary directory exists: the base URL, the build
directory, the filled module mapping and the filesystem state. -/
structure Ready where
  baseURL : String
  buildDir : String
  modules : Modules
  fs : FS
deriving DecidableEq, Repr

/-- The part of `run` up to and including `os.MkdirTemp`: flag checks, reading and
decoding the modules file, the default-branch loop, `os.MkdirAll` of the build
directory and template parsing.  Either `run` returns early (left) or it goes on
to render (right). -/
def setup (env : Env) (baseURL modulesFile buildDir : Option String) (fs : FS) :
    (Outcome × FS) ⊕ Ready :=
  match baseURL with
  | none => Sum.inl (Outcome.error "-base-url is required", fs)
  | some b =>
  if b = "" then Sum.inl (Outcome.error "-base-url is required", fs) else
  match modulesFile with
  | none => Sum.inl (Outcome.error "-modules is required", fs)
  | some m =>
  if m = "" then Sum.inl (Outcome.error "-modules is required", fs) else
  match buildDir with
  | none => Sum.inl (Outcome.error "-build-dir is required", fs)
  | some d =>
  if d = "" then Sum.inl (Outcome.error "-build-dir is required", fs) else
  match (if env.fault Site.readFile then none else readFile fs (resolve m)) with
  | none => Sum.inl (Outcome.error "failed to read modules.json", fs)
  | some modulesJSON =>
  match env.decode modulesJSON with
  | none => Sum.inl (Outcome.error "failed to unmarshal modules.json", fs)
  | some decoded =>
  match fillDefaults decoded with
  | none => Sum.inl (Outcome.panic, fs)
  | some modules =>
  match sys env Site.mkdirBuild (mkdirAll fs (resolve d)) with
  | none => Sum.inl (Outcome.error "failed to create build directory", fs)
  | some fs1 =>
  if env.fault Site.parseTemplates then
    Sum.inl (Outcome.error "failed to parse templates", fs1) else
  match sys env Site.mkdirTemp (mkdirTemp fs1 (resolve env.tmpDir)) with
  | none => Sum.inl (Outcome.error "failed to create temporary directory", fs1)
  | some fs2 => Sum.inr (Ready.mk b d modules fs2)

/-- Function `run` of `main.go`: the outcome and the final filesystem state. -/
def run (env : Env) (baseURL modulesFile buildDir : Option String) (fs : FS) : Outcome × FS :=
  match setup env baseURL modulesFile buildDir fs with
  | Sum.inl r => r
  | Sum.inr r => renderAndPublish env r.baseURL r.buildDir r.modules r.fs

/-! ## Normal forms of cleaned paths

`Clean` keeps a byte buffer; the proofs read the buffer as a stack of elements. -/

/-- An element that `Clean` copies: not empty, not `.` and not `..`. -/
def isPlain (e : List Char) : Bool := e ≠ [] ∧ e ≠ [dot] ∧ e ≠ [dot, dot]

/-- The elements of a path joined by separators. -/
def joinSep : List (List Char) → List Char
  | [] => []
  | [e] => e
  | e :: f :: es => e ++ sep :: joinSep (f :: es)

/-- The buffer of `Clean` read as a stack: whether the path is rooted, how many
leading `..` elements it has, and the plain elements after them. -/
structure NF where
  rooted : Bool
  ups : Nat
  es : List (List Char)
deriving DecidableEq, Repr

/-- The elements of a normal form, the `..` ones first. -/
def NF.elems (n : NF) : List (List Char) := List.replicate n.ups [dot, dot] ++ n.es

/-- The buffer a normal form stands for. -/
def NF.render (n : NF) : List Char := (if n.rooted then [sep] else []) ++ joinSep n.elems

/-- The index `dotdot` a normal form stands for. -/
def NF.dotdot (n : NF) : Nat :=
  if n.rooted then 1 else (joinSep (List.replicate n.ups [dot, dot])).length

/-- One iteration of `Clean` on the stack. -/
def NF.step (n : NF) (e : List Char) : NF :=
  if e = [] then n
  else if e = [dot] then n
  else if e = [dot, dot] then
    if n.es ≠ [] then NF.mk n.rooted n.ups n.es.dropLast
    else if n.rooted then n
    else NF.mk n.rooted (n.ups + 1) n.es
  else NF.mk n.rooted n.ups (n.es ++ [e])

/-- A well-formed stack: a rooted path has no leading `..`, and the elements are
plain and free of separators. -/
def NF.WF (n : NF) : Prop :=
  (n.rooted = true → n.ups = 0) ∧ ∀ e ∈ n.es, isPlain e = true ∧ sep ∉ e

/-- The stack `Clean` reaches on a path. -/
def nfOf (path : List Char) : NF :=
  (splitSep path).foldl NF.step (NF.mk (path.head? = some sep) 0 [])

/-- The elements of the cleaned path of a stack: `.` for the empty relative path,
the root for the empty rooted one. -/
def NF.path (n : NF) : List (List Char) :=
  if n.elems = [] then (if n.rooted then [[], []] else [[dot]])
  else (if n.rooted then [[]] else []) ++ n.elems

/-- The plain elements of a module key, as path elements. -/
def plainElems (k : String) : Path :=
  ((splitSep k.data).filter (fun e => isPlain e)).map String.mk

/-- A key none of whose elements is `..`. -/
def noDotDot (k : String) : Bool := (splitSep k.data).all (fun e => e ≠ [dot, dot])

/-- A key that is a clean relative path: every element is plain. -/
def isPlainKey (k : String) : Bool := (splitSep k.data).all (fun e => isPlain e)

/-- The regular file an entry contributes to the tree at `t`, by relative path. -/
def fileBelow (t : Path) (x : Path × Entry) : List Path :=
  if under t x.1 then
    (match x.2 with
      | Entry.file _ => [x.1.drop t.length]
      | Entry.dir => [])
  else []

/-- The path of a module page relative to the temporary directory, for a key
without `..` element. -/
def pageOf (k : String) : Path := plainElems k ++ ["index.html"]

/-- Exit status of the process for an outcome of `run`: `main` exits with 1 on an
error value; a panic ends the process with status 2. -/
def exitStatus : Outcome → Nat
  | Outcome.ok => 0
  | Outcome.error _ => 1
  | Outcome.panic => 2

/-- Lines on standard error for an outcome of `run`: `main` prints an error value
once; a panic is reported by the Go runtime. -/
def stderrOf : Outcome → List String
  | Outcome.ok => []
  | Outcome.error msg => [msg]
  | Outcome.panic => ["panic: runtime error: invalid memory address or nil pointer dereference"]

/-- Function `main` of `main.go` after flag parsing (flag values are never nil):
with `-help` it prints the usage and returns; otherwise it calls `run`.  The
result is the exit status, the lines on standard error and the final state. -/
def main (env : Env) (help : Bool) (baseURL modulesFile buildDir : String) (fs : FS) :
    Nat × List String × FS :=
  if help then (0, [], fs)
  else
    let r := run env (some baseURL) (some modulesFile) (some buildDir) fs
    (exitStatus r.1, stderrOf r.1, r.2)

/-! ## Sample inputs -/

/-- A record with every field empty. -/
def emptyConfig : ModuleConfig := ModuleConfig.mk "" "" ""

/-- Sample environment: the call sites in `refused` are refused, the decoder
returns `ms`, a template writes its own name, the temporary directory is
`/tmp/mygopkg1`. -/
def sampleEnv (ms : Modules) (refused : List Site) : Env :=
  Env.mk (fun s => decide (s ∈ refused)) (fun _ => some ms) (fun t _ => (t, true))
    "/tmp/mygopkg1" "2026-11-04 18:04:05 +0000 UTC"

/-- Sample state: `/tmp`, a modules file and an output directory `build` holding
one old page. -/
def sampleFS : FS :=
  [(["", "tmp"], Entry.dir), (["modules.json"], Entry.file "json"),
   (["build"], Entry.dir), (["build", "old.html"], Entry.file "old")]

/-- Sample mapping: one module without branch, one nested module with branch `dev`. -/
def sampleModules : Modules :=
  [("foo", some emptyConfig),
   ("bar/baz", some (ModuleConfig.mk "https://git.example.com/baz" "dev" "Baz"))]

/-- The sample mapping after the default-branch loop. -/
def sampleFilled : Modules :=
  [("foo", some (ModuleConfig.mk "" "main" "")),
   ("bar/baz", some (ModuleConfig.mk "https://git.example.com/baz" "dev" "Baz"))]

/-- The sample state once the temporary directory exists. -/
def sampleStart : FS := sampleFS ++ [(["", "tmp", "mygopkg1"], Entry.dir)]

/-- The sample state after rendering the sample mapping. -/
def sampleRendered : FS :=
  (render (sampleEnv sampleModules []) "https://example.com" sampleFilled sampleStart).2

/-- The sample state after rendering and the rename aside. -/
def sampleAside : FS :=
  (rename sampleRendered (resolve "build")
    (resolve (backupBuildDir (sampleEnv sampleModules []) "build"))).getD []

/-- What `run` has before rendering when started on the sample state with the
missing output directory `out`. -/
def sampleReadyOut : Ready :=
  Ready.mk "https://example.com" "out" sampleFilled
    (sampleFS ++ [(["out"], Entry.dir), (["", "tmp", "mygopkg1"], Entry.dir)])

/-- What `run` has before rendering when started on the sample state with the
output directory `build`. -/
def sampleReadyBuild : Ready :=
  Ready.mk "https://example.com" "build" sampleFilled sampleStart



/-- The part of `json.Unmarshal` into the module mapping that matters for a
modules file holding the JSON literal `null`: the map is left nil, which is the
empty mapping, and no error is returned.  Other content is not decoded by this
sample decoder. -/
def decodeNull (json : String) : Option Modules :=
  if json = "null" then some [] else none

/-- Sample environment with the decoder `decodeNull`; nothing is refused. -/
def nullEnv : Env :=
  Env.mk (fun _ => false) decodeNull (fun t _ => (t, true))
    "/tmp/mygopkg1" "2026-11-04 18:04:05 +0000 UTC"

/-- Sample state: `/tmp` and a modules file holding `null`; no output directory. -/
def nullFS : FS :=
  [(["", "tmp"], Entry.dir), (["modules.json"], Entry.file "null")]

/-- Sample state with the output directory `/tmp/build` holding one old page. -/
def sampleLiveFS : FS :=
  [(["", "tmp"], Entry.dir), (["modules.json"], Entry.file "json"),
   (["", "tmp", "build"], Entry.dir), (["", "tmp", "build", "old.html"], Entry.file "old")]

/-- The state `sampleLiveFS` after `os.MkdirTemp` and the rendering of the single
module key `../build/x`. -/
def sampleLiveRendered : FS :=
  (render (sampleEnv [("../build/x", some emptyConfig)] []) "https://example.com"
    [("../build/x", some (ModuleConfig.mk "" "main" ""))]
    (sampleLiveFS ++ [(["", "tmp", "mygopkg1"], Entry.dir)])).2

/-! ## Splitting and joining -/

theorem splitSep_ne_nil (l : List Char) : splitSep l ≠ [] := by
  induction l with
  | nil => simp [splitSep]
  | cons c cs ih =>
    unfold splitSep
    split
    · simp
    · split <;> simp

theorem splitSep_cons_sep (l : List Char) : splitSep (sep :: l) = [] :: splitSep l := by
  simp [splitSep]

theorem splitSep_of_not_mem (e : List Char) (h : sep ∉ e) : splitSep e = [e] := by
  induction e with
  | nil => simp [splitSep]
  | cons c cs ih =>
    have hc : c ≠ sep := fun hh => h (by simp [hh])
    have hcs : sep ∉ cs := fun hh => h (by simp [hh])
    simp [splitSep, hc, ih hcs]

theorem splitSep_cons_ne (c : Char) (cs : List Char) (hc : c ≠ sep) :
    splitSep (c :: cs) = ((splitSep cs).headD [] |>.cons c) :: (splitSep cs).tail := by
  have hne := splitSep_ne_nil cs
  simp only [splitSep, hc, if_false]
  cases h : splitSep cs with
  | nil => exact absurd h hne
  | cons e es => simp

theorem splitSep_append_sep (a b : List Char) :
    splitSep (a ++ sep :: b) = splitSep a ++ splitSep b := by
  induction a with
  | nil => simp [splitSep]
  | cons c cs ih =>
    by_cases hc : c = sep
    · simp [splitSep, hc, ih]
    · have hne := splitSep_ne_nil cs
      rw [List.cons_append, splitSep_cons_ne _ _ hc, splitSep_cons_ne _ _ hc, ih]
      cases h : splitSep cs with
      | nil => exact absurd h hne
      | cons e es => simp

theorem splitSep_append_of_not_mem (a s : List Char) (hs : sep ∉ s) :
    splitSep (a ++ s) = (splitSep a).dropLast ++ [(splitSep a).getLastD [] ++ s] := by
  induction a with
  | nil => simp [splitSep, splitSep_of_not_mem s hs]
  | cons c cs ih =>
    have hne := splitSep_ne_nil cs
    by_cases hc : c = sep
    · subst hc
      rw [List.cons_append, splitSep_cons_sep, splitSep_cons_sep, ih]
      cases h : splitSep cs with
      | nil => exact absurd h hne
      | cons e es => simp [List.dropLast]
    · rw [List.cons_append, splitSep_cons_ne _ _ hc, splitSep_cons_ne _ _ hc, ih]
      cases h : splitSep cs with
      | nil => exact absurd h hne
      | cons e es =>
        cases es with
        | nil => simp
        | cons f fs => simp [List.dropLast]


theorem splitSep_not_mem (l : List Char) : ∀ e ∈ splitSep l, sep ∉ e := by
  induction l with
  | nil => simp [splitSep]
  | cons c cs ih =>
    by_cases hc : c = sep
    · subst hc
      rw [splitSep_cons_sep]
      intro e he
      rcases List.mem_cons.1 he with h | h
      · simp [h]
      · exact ih e h
    · rw [splitSep_cons_ne _ _ hc]
      have hne := splitSep_ne_nil cs
      cases h : splitSep cs with
      | nil => exact absurd h hne
      | cons f fs =>
        rw [h] at ih
        intro e he
        simp only [List.headD_cons, List.tail_cons, List.mem_cons] at he
        rcases he with h1 | h1
        · subst h1
          intro hmem
          rcases List.mem_cons.1 hmem with h2 | h2
          · exact hc h2.symm
          · exact ih f (by simp) h2
        · exact ih e (by simp [h1])

theorem joinSep_concat (A : List (List Char)) (x : List Char) :
    joinSep (A ++ [x]) = if A = [] then x else joinSep A ++ sep :: x := by
  induction A with
  | nil => simp [joinSep]
  | cons a as ih =>
    cases as with
    | nil => simp [joinSep]
    | cons b bs =>
      have e1 : (a :: b :: bs) ++ [x] = a :: (b :: (bs ++ [x])) := rfl
      have e2 : (b :: bs) ++ [x] = b :: (bs ++ [x]) := rfl
      rw [e2] at ih
      rw [e1]
      simp only [joinSep, reduceCtorEq, if_false] at ih ⊢
      rw [ih]
      simp

theorem joinSep_append_left (U B : List (List Char)) :
    ∃ r, joinSep (U ++ B) = joinSep U ++ r := by
  induction B using List.reverseRecOn with
  | nil => exact ⟨[], by simp⟩
  | append_singleton B b ih =>
    obtain ⟨r, hr⟩ := ih
    rw [← List.append_assoc, joinSep_concat]
    by_cases h : U ++ B = []
    · have hU : U = [] := (List.append_eq_nil.1 h).1
      have hB : B = [] := (List.append_eq_nil.1 h).2
      refine ⟨b, ?_⟩
      simp [hB, hU, joinSep]
    · refine ⟨r ++ sep :: b, ?_⟩
      simp [h, hr]

theorem joinSep_length_le (U B : List (List Char)) :
    (joinSep U).length ≤ (joinSep (U ++ B)).length := by
  obtain ⟨r, hr⟩ := joinSep_append_left U B
  rw [hr]
  simp

theorem joinSep_eq_nil (A : List (List Char)) (h : ∀ e ∈ A, e ≠ []) :
    joinSep A = [] ↔ A = [] := by
  constructor
  · intro hj
    cases A with
    | nil => rfl
    | cons a as =>
      exfalso
      have ha : a ≠ [] := h a (by simp)
      cases as with
      | nil => exact ha (by simpa [joinSep] using hj)
      | cons b bs =>
        simp [joinSep] at hj
  · intro hA
    simp [hA, joinSep]

theorem backtrack_stop (out : List Char) (dd L : Nat) (hdd : dd ≤ L)
    (hstop : out.getD L sep = sep ∨ dd = L) :
    ∀ d, (∀ i, L < i → i ≤ L + d → out.getD i sep ≠ sep) → backtrack out dd (L + d) = L := by
  intro d
  induction d with
  | zero =>
    intro _
    cases L with
    | zero => simp [backtrack]
    | succ k =>
      simp only [Nat.add_zero, backtrack]
      rcases hstop with h | h
      · rw [if_neg]
        intro hh
        exact hh.2 h
      · rw [if_neg]
        intro hh
        omega
  | succ d ih =>
    intro h
    have h1 : out.getD (L + d + 1) sep ≠ sep := h (L + d + 1) (by omega) (by omega)
    have h2 : dd < L + d + 1 := by omega
    rw [← Nat.add_assoc]
    simp only [backtrack, h1, h2, ne_eq, not_false_eq_true, and_self, if_true]
    exact ih (fun i hi hi2 => h i hi (by omega))


theorem getD_append_right_ne (P x : List Char) (hx : sep ∉ x) (i : Nat)
    (h1 : P.length ≤ i) (h2 : i < P.length + x.length) : (P ++ x).getD i sep ≠ sep := by
  rw [List.getD_eq_getElem?_getD, List.getElem?_append_right h1]
  have h3 : i - P.length < x.length := by omega
  rw [List.getElem?_eq_getElem h3]
  simp only [Option.getD_some]
  intro h
  exact hx (h ▸ List.getElem_mem _)

theorem backtrack_plain (P x : List Char) (hx : sep ∉ x) (hne : x ≠ []) :
    backtrack (P ++ x) P.length ((P ++ x).length - 1) = P.length := by
  have hl : 0 < x.length := List.length_pos.2 hne
  have e : (P ++ x).length - 1 = P.length + (x.length - 1) := by
    simp only [List.length_append]; omega
  rw [e]
  apply backtrack_stop _ _ _ (Nat.le_refl _) (Or.inr rfl)
  intro i hi hi2
  exact getD_append_right_ne P x hx i (by omega) (by omega)

theorem backtrack_sep (P x : List Char) (dd : Nat) (hx : sep ∉ x) (hdd : dd ≤ P.length) :
    backtrack (P ++ sep :: x) dd ((P ++ sep :: x).length - 1) = P.length := by
  have e : (P ++ sep :: x).length - 1 = P.length + x.length := by
    simp only [List.length_append, List.length_cons]; omega
  rw [e]
  apply backtrack_stop _ _ _ hdd
  · left
    rw [List.getD_eq_getElem?_getD, List.getElem?_append_right (Nat.le_refl _)]
    simp
  · intro i hi hi2
    have := getD_append_right_ne (P ++ [sep]) x hx i (by simp; omega) (by simp; omega)
    simpa using this

theorem NF.elems_ne_nil (n : NF) (hn : n.WF) : ∀ e ∈ n.elems, e ≠ [] := by
  intro e he
  rcases List.mem_append.1 he with h | h
  · rw [List.eq_of_mem_replicate h]; simp
  · have := (hn.2 e h).1
    simp only [isPlain, decide_eq_true_eq] at this
    exact this.1

theorem replicate_dotdot_ne_nil (k : Nat) : ∀ e ∈ List.replicate k [dot, dot], e ≠ [] := by
  intro e he
  rw [List.eq_of_mem_replicate he]; simp

theorem NF.step_WF (n : NF) (hn : n.WF) (e : List Char) (he : sep ∉ e) : (n.step e).WF := by
  unfold NF.step
  split
  · exact hn
  · split
    · exact hn
    · split
      · split
        · refine ⟨hn.1, ?_⟩
          intro x hx
          exact hn.2 x (List.mem_of_mem_dropLast hx)
        · split
          · exact hn
          · rename_i hr
            refine ⟨fun h => absurd h hr, hn.2⟩
      · rename_i h1 h2 h3
        refine ⟨hn.1, ?_⟩
        intro x hx
        rcases List.mem_append.1 hx with h | h
        · exact hn.2 x h
        · have : x = e := by simpa using h
          subst this
          exact ⟨by simp [isPlain, h1, h2, h3], he⟩


theorem replicate_succ_concat (k : Nat) (x : List Char) :
    List.replicate (k + 1) x = List.replicate k x ++ [x] := by
  rw [List.replicate_succ']

theorem NF.render_push (n : NF) (hn : n.WF) (e : List Char) :
    addSep n.rooted n.render ++ e = (NF.mk n.rooted n.ups (n.es ++ [e])).render := by
  have hne := NF.elems_ne_nil n hn
  have key : (NF.mk n.rooted n.ups (n.es ++ [e])).elems = n.elems ++ [e] := by
    simp [NF.elems]
  unfold NF.render
  rw [key, joinSep_concat]
  by_cases hA : n.elems = []
  · cases hr : n.rooted <;> simp [addSep, NF.render, hA, hr, joinSep]
  · have hj : joinSep n.elems ≠ [] := fun h => hA ((joinSep_eq_nil _ hne).1 h)
    have hl : 0 < (joinSep n.elems).length := List.length_pos.2 hj
    cases hr : n.rooted
    · have : (joinSep n.elems).length ≠ 0 := by omega
      simp [addSep, NF.render, hA, hr, this]
    · have : (joinSep n.elems).length + 1 ≠ 1 := by omega
      simp [addSep, NF.render, hA, hr, this]

theorem NF.render_up (n : NF) (hes : n.es = []) (hr : n.rooted = false) :
    (if 0 < n.render.length then n.render ++ [sep] else n.render) ++ [dot, dot]
      = (NF.mk n.rooted (n.ups + 1) n.es).render := by
  have hne := replicate_dotdot_ne_nil n.ups
  simp only [NF.render, hr, NF.elems, hes, List.append_nil, Bool.false_eq_true, if_false,
    List.nil_append]
  rw [replicate_succ_concat, joinSep_concat]
  by_cases hA : List.replicate n.ups [dot, dot] = []
  · simp [hA, joinSep]
  · have hj : joinSep (List.replicate n.ups [dot, dot]) ≠ [] :=
      fun h => hA ((joinSep_eq_nil _ hne).1 h)
    have hl : 0 < (joinSep (List.replicate n.ups [dot, dot])).length := List.length_pos.2 hj
    simp [hA, hl]

theorem NF.dotdot_not_lt (n : NF) (hn : n.WF) (hes : n.es = []) :
    ¬ n.dotdot < n.render.length := by
  cases hr : n.rooted
  · simp [NF.dotdot, NF.render, NF.elems, hr, hes]
  · have := hn.1 hr
    simp [NF.dotdot, NF.render, NF.elems, hr, hes, this, joinSep]

theorem NF.render_concat (n : NF) (L : List (List Char)) (x : List Char)
    (hes : n.es = L ++ [x]) :
    let A := List.replicate n.ups [dot, dot] ++ L
    let R : List Char := if n.rooted then [sep] else []
    n.render = (if A = [] then R ++ x else (R ++ joinSep A) ++ sep :: x) := by
  intro A R
  have : n.elems = A ++ [x] := by simp [NF.elems, hes, A]
  unfold NF.render
  rw [this, joinSep_concat]
  by_cases hA : A = []
  · simp [hA, R]
  · simp [hA, R]

theorem NF.dotdot_le (n : NF) (L : List (List Char)) :
    n.dotdot ≤ ((if n.rooted then [sep] else []) ++
      joinSep (List.replicate n.ups [dot, dot] ++ L)).length := by
  cases hr : n.rooted
  · simpa [NF.dotdot, hr] using joinSep_length_le _ _
  · simp [NF.dotdot, hr]

theorem NF.dotdot_lt (n : NF) (hn : n.WF) (hes : n.es ≠ []) :
    n.dotdot < n.render.length := by
  rcases List.eq_nil_or_concat n.es with h | ⟨L, x, h⟩
  · exact absurd h hes
  · rw [List.concat_eq_append] at h
    have hx : x ≠ [] := by
      have := (hn.2 x (by simp [h])).1
      simp only [isPlain, decide_eq_true_eq] at this
      exact this.1
    have hxl : 0 < x.length := List.length_pos.2 hx
    have hr := NF.render_concat n L x h
    simp only at hr
    rw [hr]
    by_cases hA : List.replicate n.ups [dot, dot] ++ L = []
    · have hU : List.replicate n.ups [dot, dot] = [] := (List.append_eq_nil.1 hA).1
      rw [if_pos hA]
      cases hrt : n.rooted
      · simp only [NF.dotdot, hrt, hU, joinSep, Bool.false_eq_true, if_false,
          List.nil_append, List.length_nil]
        exact hxl
      · simp only [NF.dotdot, hrt, if_true, List.length_append, List.length_cons,
          List.length_nil]
        omega
    · have := NF.dotdot_le n L
      simp only [hA, if_false, List.length_append, List.length_cons] at this ⊢
      omega

theorem NF.render_backtrack (n : NF) (hn : n.WF) (hes : n.es ≠ []) :
    n.render.take (backtrack n.render n.dotdot (n.render.length - 1))
      = (NF.mk n.rooted n.ups n.es.dropLast).render := by
  rcases List.eq_nil_or_concat n.es with h | ⟨L, x, h⟩
  · exact absurd h hes
  · rw [List.concat_eq_append] at h
    have hx := hn.2 x (by simp [h])
    have hxne : x ≠ [] := by
      have := hx.1
      simp only [isPlain, decide_eq_true_eq] at this
      exact this.1
    have hr := NF.render_concat n L x h
    simp only at hr
    have hd : n.es.dropLast = L := by simp [h]
    have htarget : (NF.mk n.rooted n.ups n.es.dropLast).render
        = (if n.rooted then [sep] else []) ++ joinSep (List.replicate n.ups [dot, dot] ++ L) := by
      simp [NF.render, NF.elems, hd]
    rw [htarget, hr]
    by_cases hA : List.replicate n.ups [dot, dot] ++ L = []
    · have hU : List.replicate n.ups [dot, dot] = [] := (List.append_eq_nil.1 hA).1
      have hdd : n.dotdot = (if n.rooted then [sep] else ([] : List Char)).length := by
        cases hrt : n.rooted <;> simp [NF.dotdot, hrt, hU, joinSep]
      simp only [hA, if_true, joinSep, List.append_nil]
      rw [hdd, backtrack_plain _ _ hx.2 hxne]
      simp
    · simp only [hA, if_false]
      rw [backtrack_sep _ _ _ hx.2 (NF.dotdot_le n L)]
      exact List.take_left _ _

theorem cleanElem_step (n : NF) (hn : n.WF) (e : List Char) :
    cleanElem n.rooted (n.render, n.dotdot) e = ((n.step e).render, (n.step e).dotdot) := by
  unfold cleanElem NF.step
  by_cases h1 : e = []
  · simp [h1]
  by_cases h2 : e = [dot]
  · simp [h2]
  by_cases h3 : e = [dot, dot]
  · rw [if_neg h1, if_neg h2, if_pos h3, if_neg h1, if_neg h2, if_pos h3]
    by_cases hes : n.es = []
    · have hlt := NF.dotdot_not_lt n hn hes
      have hes2 : ¬ (n.es ≠ []) := fun h => h hes
      simp only []
      rw [if_neg hlt, if_neg hes2]
      cases hr : n.rooted
      · have hup := NF.render_up n hes hr
        simp only [Bool.false_eq_true, if_false]
        rw [hup]
        simp [NF.dotdot, NF.render, NF.elems, hes, hr]
      · simp
    · have hlt := NF.dotdot_lt n hn hes
      simp only []
      rw [if_pos hlt, if_pos hes, NF.render_backtrack n hn hes]
      simp [NF.dotdot]
  · rw [if_neg h1, if_neg h2, if_neg h3, if_neg h1, if_neg h2, if_neg h3]
    simp only []
    rw [NF.render_push n hn e]
    simp [NF.dotdot]


theorem NF.step_rooted (n : NF) (e : List Char) : (n.step e).rooted = n.rooted := by
  unfold NF.step
  split
  · rfl
  · split
    · rfl
    · split
      · split
        · rfl
        · split <;> rfl
      · rfl

theorem NF.foldl_step_rooted (es : List (List Char)) (n : NF) :
    (es.foldl NF.step n).rooted = n.rooted := by
  induction es generalizing n with
  | nil => rfl
  | cons e es ih => rw [List.foldl_cons, ih, NF.step_rooted]

theorem NF.foldl_step_WF (es : List (List Char)) (hes : ∀ e ∈ es, sep ∉ e) (n : NF)
    (hn : n.WF) : (es.foldl NF.step n).WF := by
  induction es generalizing n with
  | nil => exact hn
  | cons e es ih =>
    rw [List.foldl_cons]
    exact ih (fun x hx => hes x (by simp [hx])) _ (NF.step_WF n hn e (hes e (by simp)))

theorem cleanElem_foldl (es : List (List Char)) (hes : ∀ e ∈ es, sep ∉ e) (n : NF)
    (hn : n.WF) :
    es.foldl (cleanElem n.rooted) (n.render, n.dotdot)
      = ((es.foldl NF.step n).render, (es.foldl NF.step n).dotdot) := by
  induction es generalizing n with
  | nil => rfl
  | cons e es ih =>
    rw [List.foldl_cons, List.foldl_cons, cleanElem_step n hn e]
    have h := ih (fun x hx => hes x (by simp [hx])) (n.step e)
      (NF.step_WF n hn e (hes e (by simp)))
    rw [NF.step_rooted] at h
    exact h

theorem NF.init_WF (r : Bool) : (NF.mk r 0 []).WF := by
  constructor
  · intro _; rfl
  · intro e he; simp at he

theorem nfOf_WF (path : List Char) : (nfOf path).WF :=
  NF.foldl_step_WF _ (splitSep_not_mem path) _ (NF.init_WF _)

/-- The cleaned path is the rendering of the stack, `.` when that is empty. -/
theorem cleanChars_eq (path : List Char) :
    cleanChars path = if (nfOf path).render = [] then [dot] else (nfOf path).render := by
  unfold cleanChars
  by_cases hp : path = []
  · subst hp
    simp [nfOf, splitSep, NF.step, NF.render, NF.elems, joinSep]
  · rw [if_neg hp]
    simp only []
    have h := cleanElem_foldl (splitSep path) (splitSep_not_mem path)
      (NF.mk (decide (path.head? = some sep)) 0 []) (NF.init_WF _)
    have hstart : (if (decide (path.head? = some sep)) = true then (([sep], 1) : List Char × Nat)
        else ([], 0)) = ((NF.mk (decide (path.head? = some sep)) 0 []).render,
          (NF.mk (decide (path.head? = some sep)) 0 []).dotdot) := by
      cases decide (path.head? = some sep) <;> simp [NF.render, NF.dotdot, NF.elems, joinSep]
    rw [hstart, h]
    rfl

theorem splitSep_joinSep (A : List (List Char)) (hne : A ≠ []) (hA : ∀ e ∈ A, sep ∉ e) :
    splitSep (joinSep A) = A := by
  induction A with
  | nil => exact absurd rfl hne
  | cons a as ih =>
    cases as with
    | nil => simpa [joinSep] using splitSep_of_not_mem a (hA a (by simp))
    | cons b bs =>
      simp only [joinSep]
      rw [splitSep_append_sep, splitSep_of_not_mem a (hA a (by simp)),
        ih (by simp) (fun e he => hA e (by simp [he]))]
      rfl

theorem NF.elems_not_mem (n : NF) (hn : n.WF) : ∀ e ∈ n.elems, sep ∉ e := by
  intro e he
  rcases List.mem_append.1 he with h | h
  · rw [List.eq_of_mem_replicate h]
    simp [dot, sep]
  · exact (hn.2 e h).2

/-- The elements of the cleaned path of a well-formed stack. -/
theorem NF.splitSep_render (n : NF) (hn : n.WF) :
    splitSep (if n.render = [] then [dot] else n.render) = n.path := by
  unfold NF.path NF.render
  by_cases hA : n.elems = []
  · cases hr : n.rooted <;> simp [hA, joinSep, splitSep, dot, sep]
  · have hs := splitSep_joinSep n.elems hA (NF.elems_not_mem n hn)
    have hj : joinSep n.elems ≠ [] :=
      fun h => hA ((joinSep_eq_nil _ (NF.elems_ne_nil n hn)).1 h)
    cases hr : n.rooted
    · simp [hA, hj, hs]
    · simp [hA, splitSep_cons_sep, hs]

theorem resolve_eq (p : String) : resolve p = (nfOf p.data).path.map String.mk := by
  unfold resolve
  rw [cleanChars_eq, NF.splitSep_render _ (nfOf_WF _)]


theorem nfOf_append_sep (a b : List Char) (ha : a ≠ []) :
    nfOf (a ++ sep :: b) = (splitSep b).foldl NF.step (nfOf a) := by
  unfold nfOf
  rw [splitSep_append_sep, List.foldl_append]
  cases a with
  | nil => exact absurd rfl ha
  | cons c cs => rfl

theorem NF.foldl_step_no_up (es : List (List Char)) (hes : ∀ e ∈ es, e ≠ [dot, dot]) (n : NF) :
    es.foldl NF.step n = NF.mk n.rooted n.ups (n.es ++ es.filter (fun e => isPlain e)) := by
  induction es generalizing n with
  | nil => simp
  | cons e es ih =>
    have h3 : e ≠ [dot, dot] := hes e (by simp)
    rw [List.foldl_cons, ih (fun x hx => hes x (by simp [hx]))]
    by_cases h1 : e = []
    · simp [NF.step, h1, isPlain]
    by_cases h2 : e = [dot]
    · simp [NF.step, h2, isPlain]
    · simp [NF.step, h1, h2, h3, isPlain]

theorem NF.foldl_step_plain (es : List (List Char)) (hes : ∀ e ∈ es, isPlain e = true) (n : NF) :
    es.foldl NF.step n = NF.mk n.rooted n.ups (n.es ++ es) := by
  rw [NF.foldl_step_no_up es _ n]
  · congr 2
    exact List.filter_eq_self.2 hes
  · intro e he h
    have := hes e he
    simp [isPlain, h] at this

theorem NF.foldl_step_ups (k j : Nat) :
    (List.replicate k [dot, dot]).foldl NF.step (NF.mk false j []) = NF.mk false (j + k) [] := by
  induction k generalizing j with
  | zero => rfl
  | succ k ih =>
    rw [List.replicate_succ, List.foldl_cons]
    have : (NF.mk false j []).step [dot, dot] = NF.mk false (j + 1) [] := by
      simp [NF.step]
    rw [this, ih]
    congr 1
    omega

theorem joinSep_head (a : List Char) (as : List (List Char)) (ha : a ≠ []) :
    (joinSep (a :: as)).head? = a.head? := by
  cases as with
  | nil => rfl
  | cons b bs =>
    cases a with
    | nil => exact absurd rfl ha
    | cons c cs => rfl

theorem NF.render_head (n : NF) (hn : n.WF) :
    decide ((if n.render = [] then [dot] else n.render).head? = some sep) = n.rooted := by
  cases hr : n.rooted
  · by_cases hA : n.elems = []
    · simp [NF.render, hr, hA, joinSep, dot, sep]
    · have hj : joinSep n.elems ≠ [] :=
        fun h => hA ((joinSep_eq_nil _ (NF.elems_ne_nil n hn)).1 h)
      cases hel : n.elems with
      | nil => exact absurd hel hA
      | cons a as =>
        have ha : a ≠ [] := NF.elems_ne_nil n hn a (by simp [hel])
        have hs : sep ∉ a := NF.elems_not_mem n hn a (by simp [hel])
        have hh := joinSep_head a as ha
        rw [hel] at hj
        simp only [NF.render, hr, hel, Bool.false_eq_true, if_false, List.nil_append, hj, hh,
          decide_eq_false_iff_not]
        cases a with
        | nil => exact absurd rfl ha
        | cons c cs =>
          intro h
          simp only [List.head?_cons, Option.some.injEq] at h
          exact hs (by simp [h])
  · simp [NF.render, hr]

theorem NF.eq_of_elems_nil (n : NF) (h : n.elems = []) : n = NF.mk n.rooted 0 [] := by
  obtain ⟨r, k, es⟩ := n
  simp only [NF.elems, List.append_eq_nil, List.replicate_eq_nil_iff] at h
  simp [h.1, h.2]

theorem NF.foldl_step_path (n : NF) (hn : n.WF) :
    n.path.foldl NF.step (NF.mk n.rooted 0 []) = n := by
  unfold NF.path
  by_cases hA : n.elems = []
  · rw [if_pos hA]
    have := NF.eq_of_elems_nil n hA
    cases hr : n.rooted
    · rw [hr] at this; rw [this]; simp [NF.step]
    · rw [hr] at this; rw [this]; simp [NF.step]
  · rw [if_neg hA]
    have hplain : ∀ e ∈ n.es, isPlain e = true := fun e he => (hn.2 e he).1
    obtain ⟨r, k, es⟩ := n
    cases r
    · simp only [NF.elems, Bool.false_eq_true, if_false, List.nil_append, List.foldl_append]
      rw [NF.foldl_step_ups, NF.foldl_step_plain es hplain]
      simp
    · have hk : k = 0 := hn.1 rfl
      subst hk
      simp only [NF.elems, if_true, List.replicate_zero, List.nil_append, List.singleton_append,
        List.foldl_cons]
      have : (NF.mk true 0 []).step [] = NF.mk true 0 [] := by simp [NF.step]
      rw [this, NF.foldl_step_plain es hplain]
      simp

/-- Cleaning is idempotent on stacks. -/
theorem nfOf_render (n : NF) (hn : n.WF) :
    nfOf (if n.render = [] then [dot] else n.render) = n := by
  unfold nfOf
  rw [NF.splitSep_render n hn, NF.render_head n hn, NF.foldl_step_path n hn]

theorem nfOf_cleanChars (path : List Char) : nfOf (cleanChars path) = nfOf path := by
  rw [cleanChars_eq, nfOf_render _ (nfOf_WF path)]

theorem cleanChars_ne_nil (path : List Char) : cleanChars path ≠ [] := by
  rw [cleanChars_eq]
  split
  · simp
  · assumption

/-! ## Joined paths -/

theorem data_ne_nil (a : String) (ha : a ≠ "") : a.data ≠ [] := by
  intro h
  apply ha
  cases a
  simp_all

theorem nfOf_Join (a b : String) (ha : a ≠ "") :
    nfOf (Join a b).data = (splitSep b.data).foldl NF.step (nfOf a.data) := by
  unfold Join
  rw [if_pos ha]
  show nfOf (cleanChars (a ++ "/" ++ b).data) = _
  rw [nfOf_cleanChars]
  have : (a ++ "/" ++ b).data = a.data ++ sep :: b.data := by
    simp [String.data_append, sep]
  rw [this, nfOf_append_sep _ _ (data_ne_nil a ha)]

theorem Join_ne_empty (a b : String) (ha : a ≠ "") : Join a b ≠ "" := by
  unfold Join
  rw [if_pos ha]
  intro h
  have := congrArg String.data h
  exact cleanChars_ne_nil _ this

theorem NF.elems_ne_nil_of_not_special (n : NF)
    (h : isSpecial (n.path.map String.mk) = false) : n.elems ≠ [] := by
  intro hA
  unfold NF.path at h
  rw [if_pos hA] at h
  cases hr : n.rooted <;> rw [hr] at h <;> revert h <;> decide

theorem NF.path_append (n : NF) (hA : n.elems ≠ []) (P : List (List Char)) :
    (NF.mk n.rooted n.ups (n.es ++ P)).path = n.path ++ P := by
  have h1 : (NF.mk n.rooted n.ups (n.es ++ P)).elems = n.elems ++ P := by
    simp [NF.elems]
  have h2 : n.elems ++ P ≠ [] := by simp [hA]
  unfold NF.path
  rw [h1, if_neg h2, if_neg hA]
  simp

theorem resolve_empty_special : isSpecial (resolve "") = true := by decide

theorem ne_empty_of_not_special (t : String) (ht : isSpecial (resolve t) = false) : t ≠ "" := by
  intro h
  subst h
  rw [resolve_empty_special] at ht
  exact absurd ht (by decide)

/-- The directory of a page: the temporary directory followed by the plain
elements of the key, when the key has no `..` element. -/
theorem resolve_Join (t k : String) (ht : isSpecial (resolve t) = false)
    (hk : noDotDot k = true) : resolve (Join t k) = resolve t ++ plainElems k := by
  have hne := ne_empty_of_not_special t ht
  rw [resolve_eq] at ht
  have hA := NF.elems_ne_nil_of_not_special _ ht
  have hk2 : ∀ e ∈ splitSep k.data, e ≠ [dot, dot] := by
    intro e he
    have := List.all_eq_true.1 hk e he
    simpa using this
  rw [resolve_eq, resolve_eq, nfOf_Join t k hne, NF.foldl_step_no_up _ hk2,
    NF.path_append _ hA]
  simp [plainElems]

/-- The file of a page is `index.html` in the directory of the page. -/
theorem resolve_Join_index (t k : String) (ht : isSpecial (resolve t) = false)
    (hk : noDotDot k = true) :
    resolve (Join (Join t k) "index.html") = resolve t ++ plainElems k ++ ["index.html"] := by
  have hne := ne_empty_of_not_special t ht
  rw [resolve_eq] at ht
  have hA := NF.elems_ne_nil_of_not_special _ ht
  have hk2 : ∀ e ∈ splitSep k.data, e ≠ [dot, dot] := by
    intro e he
    have := List.all_eq_true.1 hk e he
    simpa using this
  have hidx : ∀ e ∈ splitSep "index.html".data, isPlain e = true := by decide
  rw [resolve_eq, nfOf_Join _ _ (Join_ne_empty t k hne), nfOf_Join t k hne,
    NF.foldl_step_no_up _ hk2, NF.foldl_step_plain _ hidx]
  simp only []
  rw [List.append_assoc, NF.path_append _ hA, resolve_eq]
  have : splitSep "index.html".data = ["index.html".data] := by decide
  rw [this]
  simp [plainElems]

theorem plainElems_of_plain (k : String) (hk : isPlainKey k = true) :
    plainElems k = (splitSep k.data).map String.mk := by
  unfold plainElems
  congr 1
  apply List.filter_eq_self.2
  intro e he
  exact List.all_eq_true.1 hk e he

theorem noDotDot_of_plain (k : String) (hk : isPlainKey k = true) : noDotDot k = true := by
  apply List.all_eq_true.2
  intro e he
  have := List.all_eq_true.1 hk e he
  simp only [decide_eq_true_eq]
  intro h
  rw [h] at this
  exact absurd this (by decide)

theorem noDotDot_empty : noDotDot "" = true := by decide

theorem plainElems_empty : plainElems "" = [] := by decide


/-! ## The backup name -/

theorem under_append (A B : Path) : under A (A ++ B) = true := by
  unfold under
  rw [List.isPrefixOf_iff_prefix]
  exact List.prefix_append A B

theorem under_iff (d p : Path) : under d p = true ↔ d <+: p := by
  unfold under
  exact List.isPrefixOf_iff_prefix

theorem map_mk_injective : Function.Injective (List.map String.mk) := by
  apply List.map_injective_iff.2
  intro a b h
  injection h

theorem isSpecial_of_elems_nil (n : NF) (hA : n.elems = []) :
    isSpecial (n.path.map String.mk) = true := by
  unfold NF.path
  rw [if_pos hA]
  cases n.rooted <;> decide

theorem isSpecial_of_getLast (p : Path) (h : p.getLast? = some "..") : isSpecial p = true := by
  unfold isSpecial
  simp [h]

/-- Where the backup name resolves, relative to the output path `d`: unless `d`
is a special directory or the backup lies inside `d`, the two are siblings. -/
theorem resolve_backup (d : String) (s : List Char) (hd : d ≠ "") (hs : sep ∉ s)
    (hlen : 3 ≤ s.length) :
    isSpecial (resolve d) = true ∨
    (under (resolve d) (resolve (String.mk (d.data ++ s))) = true ∧
      resolve d ≠ resolve (String.mk (d.data ++ s))) ∨
    (∃ P e f, resolve d = P ++ [e] ∧ resolve (String.mk (d.data ++ s)) = P ++ [f] ∧ e ≠ f) := by
  have hdne := data_ne_nil d hd
  have hsp := splitSep_ne_nil d.data
  obtain ⟨I, e, hIe⟩ : ∃ I e, splitSep d.data = I ++ [e] := by
    rcases List.eq_nil_or_concat (splitSep d.data) with h | ⟨I, e, h⟩
    · exact absurd h hsp
    · exact ⟨I, e, by rw [h, List.concat_eq_append]⟩
  have hsepI : ∀ x ∈ I, sep ∉ x := fun x hx => splitSep_not_mem d.data x (by simp [hIe, hx])
  have hsepe : sep ∉ e := splitSep_not_mem d.data e (by simp [hIe])
  let n0 := I.foldl NF.step (NF.mk (decide (d.data.head? = some sep)) 0 [])
  have hn0 : n0.WF := NF.foldl_step_WF I hsepI _ (NF.init_WF _)
  have h1 : nfOf d.data = n0.step e := by
    unfold nfOf
    rw [hIe, List.foldl_append]
    rfl
  have hhead : (d.data ++ s).head? = d.data.head? := by
    cases hdd : d.data with
    | nil => exact absurd hdd hdne
    | cons c cs => rfl
  have h2 : nfOf (d.data ++ s) = n0.step (e ++ s) := by
    unfold nfOf
    rw [splitSep_append_of_not_mem _ _ hs, hIe, hhead]
    simp only [List.dropLast_concat, List.getLastD_concat, List.foldl_append]
    rfl
  have hes1 : e ++ s ≠ [] := by
    intro h
    have := congrArg List.length h
    simp only [List.length_append, List.length_cons, List.length_nil] at this
    omega
  have hes2 : e ++ s ≠ [dot] := by
    intro h
    have := congrArg List.length h
    simp only [List.length_append, List.length_cons, List.length_nil] at this
    omega
  have hes3 : e ++ s ≠ [dot, dot] := by
    intro h
    have := congrArg List.length h
    simp only [List.length_append, List.length_cons, List.length_nil] at this
    omega
  have h3 : n0.step (e ++ s) = NF.mk n0.rooted n0.ups (n0.es ++ [e ++ s]) := by
    simp [NF.step, hes1, hes2, hes3]
  have hbak : resolve (String.mk (d.data ++ s))
      = ((if n0.rooted then [[]] else []) ++ n0.elems ++ [e ++ s]).map String.mk := by
    rw [resolve_eq]
    show List.map String.mk (nfOf (d.data ++ s)).path = _
    rw [h2, h3]
    have : (NF.mk n0.rooted n0.ups (n0.es ++ [e ++ s])).elems = n0.elems ++ [e ++ s] := by
      simp [NF.elems]
    unfold NF.path
    rw [this, if_neg (by simp)]
    simp
  have hout : resolve d = (n0.step e).path.map String.mk := by rw [resolve_eq, h1]
  -- a stack whose path is a proper leading part of the backup path
  have inside : ∀ (n1 : NF) (B : List (List Char)), n1.rooted = n0.rooted →
      n1.elems ++ B = n0.elems → n0.step e = n1 →
      isSpecial (resolve d) = true ∨
      (under (resolve d) (resolve (String.mk (d.data ++ s))) = true ∧
        resolve d ≠ resolve (String.mk (d.data ++ s))) := by
    intro n1 B hr hel hst
    by_cases hA : n1.elems = []
    · left
      rw [hout, hst]
      exact isSpecial_of_elems_nil n1 hA
    · right
      have hp : (n1.path.map String.mk) ++ ((B ++ [e ++ s]).map String.mk)
          = resolve (String.mk (d.data ++ s)) := by
        rw [hbak, ← hel]
        unfold NF.path
        rw [if_neg hA, hr]
        simp
      rw [hout, hst, ← hp]
      refine ⟨under_append _ _, ?_⟩
      intro h
      have := congrArg List.length h
      simp at this
  by_cases c1 : e = []
  · have : n0.step e = n0 := by simp [NF.step, c1]
    rcases inside n0 [] rfl (by simp) this with h | h
    · exact Or.inl h
    · exact Or.inr (Or.inl h)
  by_cases c2 : e = [dot]
  · have : n0.step e = n0 := by simp [NF.step, c2]
    rcases inside n0 [] rfl (by simp) this with h | h
    · exact Or.inl h
    · exact Or.inr (Or.inl h)
  by_cases c3 : e = [dot, dot]
  · by_cases hes : n0.es = []
    · cases hr : n0.rooted
      · left
        have : n0.step e = NF.mk n0.rooted (n0.ups + 1) n0.es := by
          simp [NF.step, c3, hes, hr]
        rw [hout, this]
        apply isSpecial_of_getLast
        have hel : (NF.mk n0.rooted (n0.ups + 1) n0.es).elems
            = List.replicate n0.ups [dot, dot] ++ [[dot, dot]] := by
          simp [NF.elems, hes, List.replicate_succ']
        unfold NF.path
        rw [hel, if_neg (by simp)]
        simp only [hr, Bool.false_eq_true, if_false, List.nil_append, List.map_append,
          List.map_cons, List.map_nil]
        rw [List.getLast?_append]
        rfl
      · have : n0.step e = n0 := by simp [NF.step, c3, hes, hr]
        rcases inside n0 [] rfl (by simp) this with h | h
        · exact Or.inl h
        · exact Or.inr (Or.inl h)
    · have hst : n0.step e = NF.mk n0.rooted n0.ups n0.es.dropLast := by
        simp [NF.step, c3, hes]
      obtain ⟨L, x, hLx⟩ : ∃ L x, n0.es = L ++ [x] := by
        rcases List.eq_nil_or_concat n0.es with h | ⟨L, x, h⟩
        · exact absurd h hes
        · exact ⟨L, x, by rw [h, List.concat_eq_append]⟩
      rcases inside (NF.mk n0.rooted n0.ups n0.es.dropLast) [x] rfl
        (by simp [NF.elems, hLx]) hst with h | h
      · exact Or.inl h
      · exact Or.inr (Or.inl h)
  · right; right
    have hst : n0.step e = NF.mk n0.rooted n0.ups (n0.es ++ [e]) := by
      simp [NF.step, c1, c2, c3]
    refine ⟨((if n0.rooted then [[]] else []) ++ n0.elems).map String.mk,
      String.mk e, String.mk (e ++ s), ?_, ?_, ?_⟩
    · rw [hout, hst]
      have : (NF.mk n0.rooted n0.ups (n0.es ++ [e])).elems = n0.elems ++ [e] := by
        simp [NF.elems]
      unfold NF.path
      rw [this, if_neg (by simp)]
      simp
    · rw [hbak]; simp
    · intro h
      injection h with h
      have := congrArg List.length h
      simp only [List.length_append] at this
      omega


/-! ## Filesystem lemmas -/

theorem prefix_comparable {a b c : Path} (ha : a <+: c) (hb : b <+: c) : a <+: b ∨ b <+: a :=
  List.prefix_or_prefix_of_prefix ha hb

theorem under_false_iff (d p : Path) : under d p = false ↔ ¬ d <+: p := by
  rw [← under_iff]; simp

theorem stat_exists (fs : FS) (p : Path) (hp : isSpecial p = false) (h : stat fs p ≠ none) :
    ∃ x ∈ fs, x.1 = p := by
  unfold stat at h
  rw [hp] at h
  simp only [Bool.false_eq_true, if_false, ne_eq, Option.map_eq_none'] at h
  cases hf : fs.find? (fun x => decide (x.1 = p)) with
  | none => exact absurd hf h
  | some x =>
    have hm := List.mem_of_find?_eq_some hf
    have hx := List.find?_some hf
    exact ⟨x, hm, by simpa using hx⟩

/-- What a successful rename did. -/
theorem rename_some (fs : FS) (old new : Path) (s1 : FS) (h : rename fs old new = some s1) :
    isSpecial old = false ∧ isSpecial new = false ∧ (∃ x ∈ fs, x.1 = old) ∧
    ((old = new ∧ s1 = fs) ∨
     (old ≠ new ∧ ¬ old <+: new ∧ (∀ x ∈ fs, new <+: x.1 → x.1 = new) ∧
      s1 = (fs.filter (fun x => x.1 ≠ new)).map (rebase old new))) := by
  unfold rename at h
  by_cases hsp : isSpecial old = true ∨ isSpecial new = true
  · rw [if_pos hsp] at h; exact absurd h (by simp)
  · rw [if_neg hsp] at h
    have ho : isSpecial old = false := by
      cases hh : isSpecial old
      · rfl
      · exact absurd (Or.inl hh) hsp
    have hn : isSpecial new = false := by
      cases hh : isSpecial new
      · rfl
      · exact absurd (Or.inr hh) hsp
    refine ⟨ho, hn, ?_⟩
    cases hst : stat fs old with
    | none => rw [hst] at h; exact absurd h (by simp)
    | some e =>
      rw [hst] at h
      simp only [] at h
      refine ⟨stat_exists fs old ho (by rw [hst]; simp), ?_⟩
      split at h
      · exact absurd h (by simp)
      by_cases heq : old = new
      · rw [if_pos heq] at h
        left
        exact ⟨heq, (Option.some.inj h).symm⟩
      · rw [if_neg heq] at h
        right
        split at h
        · exact absurd h (by simp)
        · rename_i hu
          split at h
          · exact absurd h (by simp)
          · split at h
            · exact absurd h (by simp)
            · split at h
              · exact absurd h (by simp)
              · rename_i hany
                refine ⟨heq, ?_, ?_, (Option.some.inj h).symm⟩
                · rw [← under_iff]; simpa using hu
                · intro x hx hpre
                  by_contra hne
                  apply hany
                  apply List.any_eq_true.2
                  exact ⟨x, hx, by simp [(under_iff _ _).2 hpre, hne]⟩

theorem subtree_eq_nil (fs : FS) (d : Path) (h : ∀ x ∈ fs, ¬ d <+: x.1) : subtree fs d = [] := by
  unfold subtree
  apply List.filterMap_eq_nil_iff.2
  intro x hx
  rw [if_neg]
  rw [under_iff]
  exact h x hx

theorem rebase_of_under (old new : Path) (x : Path × Entry) (h : old <+: x.1) :
    rebase old new x = (new ++ x.1.drop old.length, x.2) := by
  unfold rebase
  rw [if_pos ((under_iff _ _).2 h)]

theorem rebase_of_not_under (old new : Path) (x : Path × Entry) (h : ¬ old <+: x.1) :
    rebase old new x = x := by
  unfold rebase
  rw [if_neg]
  rw [under_iff]; exact h

theorem decide_ne_true {x new : Path} (h : x ≠ new) : decide (x ≠ new) = true := by
  simp [h]

theorem decide_ne_not_true {x new : Path} (h : x = new) : ¬ decide (x ≠ new) = true := by
  simp [h]

theorem not_under_of {d p : Path} (h : ¬ d <+: p) : ¬ under d p = true := by
  rw [under_iff]; exact h

/-- After a move, the tree at the target is the tree that was at the source. -/
theorem subtree_moved_new (fs : FS) (old new : Path) (hne : ¬ old <+: new)
    (hempty : ∀ x ∈ fs, new <+: x.1 → x.1 = new) :
    subtree ((fs.filter (fun x => x.1 ≠ new)).map (rebase old new)) new = subtree fs old := by
  unfold subtree
  rw [List.filterMap_map, List.filterMap_filter]
  apply List.filterMap_congr
  intro x hx
  simp only [Function.comp]
  by_cases hu : old <+: x.1
  · have hxn : x.1 ≠ new := fun h => hne (h ▸ hu)
    rw [if_pos (decide_ne_true hxn), rebase_of_under _ _ _ hu, if_pos (under_append _ _),
      if_pos ((under_iff _ _).2 hu)]
    simp
  · rw [if_neg (not_under_of hu)]
    by_cases hxn : x.1 = new
    · rw [if_neg (decide_ne_not_true hxn)]
    · rw [if_pos (decide_ne_true hxn), rebase_of_not_under _ _ _ hu, if_neg]
      exact not_under_of (fun hp => hxn (hempty x hx hp))

/-- After a move, nothing is left at or below the source. -/
theorem moved_old_gone (fs : FS) (old new : Path) (hne : ¬ old <+: new) (hon : old ≠ new)
    (hex : ∃ x ∈ fs, x.1 = old) (hempty : ∀ x ∈ fs, new <+: x.1 → x.1 = new) :
    ∀ y ∈ (fs.filter (fun x => x.1 ≠ new)).map (rebase old new), ¬ old <+: y.1 := by
  intro y hy
  obtain ⟨x, hx, hxy⟩ := List.mem_map.1 hy
  have hxfs : x ∈ fs := (List.mem_filter.1 hx).1
  subst hxy
  by_cases hu : old <+: x.1
  · rw [rebase_of_under _ _ _ hu]
    intro hp
    rcases prefix_comparable hp (List.prefix_append new _) with h | h
    · exact hne h
    · obtain ⟨z, hz, hzo⟩ := hex
      exact hon ((hempty z hz (hzo ▸ h)).symm ▸ hzo.symm)
  · rw [rebase_of_not_under _ _ _ hu]
    exact hu

/-- A move leaves the tree at `d` alone when `d` is comparable with neither the
source nor the target. -/
theorem subtree_moved_frame (fs : FS) (old new d : Path)
    (h1 : ¬ d <+: old) (h2 : ¬ old <+: d) (h3 : ¬ d <+: new) (h4 : ¬ new <+: d) :
    subtree ((fs.filter (fun x => x.1 ≠ new)).map (rebase old new)) d = subtree fs d := by
  unfold subtree
  rw [List.filterMap_map, List.filterMap_filter]
  apply List.filterMap_congr
  intro x hx
  simp only [Function.comp]
  by_cases hxn : x.1 = new
  · have hd : ¬ d <+: x.1 := hxn ▸ h3
    rw [if_neg (decide_ne_not_true hxn), if_neg (not_under_of hd)]
  · rw [if_pos (decide_ne_true hxn)]
    by_cases hu : old <+: x.1
    · have hd : ¬ d <+: x.1 := by
        intro hp
        rcases prefix_comparable hp hu with h | h
        · exact h1 h
        · exact h2 h
      have hd2 : ¬ d <+: new ++ x.1.drop old.length := by
        intro hp
        rcases prefix_comparable hp (List.prefix_append new _) with h | h
        · exact h3 h
        · exact h4 h
      rw [rebase_of_under _ _ _ hu, if_neg (not_under_of hd2), if_neg (not_under_of hd)]
    · rw [rebase_of_not_under _ _ _ hu]

/-- Removing a tree leaves the tree at `d` alone when the two are not comparable. -/
theorem subtree_removed_frame (fs : FS) (p d : Path) (h1 : ¬ d <+: p) (h2 : ¬ p <+: d) :
    subtree (fs.filter (fun x => ¬ under p x.1)) d = subtree fs d := by
  unfold subtree
  rw [List.filterMap_filter]
  apply List.filterMap_congr
  intro x hx
  by_cases hu : p <+: x.1
  · have hd : ¬ d <+: x.1 := by
      intro hp
      rcases prefix_comparable hp hu with h | h
      · exact h1 h
      · exact h2 h
    have hf : ¬ (decide ¬under p x.1 = true) = true := by
      simp [(under_iff _ _).2 hu]
    rw [if_neg hf, if_neg (not_under_of hd)]
  · have hf : (decide ¬under p x.1 = true) = true := by
      simp [(under_false_iff _ _).2 hu]
    rw [if_pos hf]


/-! ## The publish steps -/

theorem sys_some (env : Env) (st : Site) (r : Option FS) (x : FS) (h : sys env st r = some x) :
    r = some x := by
  unfold sys at h
  split at h
  · exact absurd h (by simp)
  · exact h

theorem resolve_congr (p q : String) (h : p.data = q.data) : resolve p = resolve q := by
  unfold resolve
  rw [h]

theorem resolve_backupBuildDir (env : Env) (d : String) :
    resolve (backupBuildDir env d) = resolve (String.mk (d.data ++ ("-bak-".data ++ env.now.data))) := by
  apply resolve_congr
  simp [backupBuildDir, String.data_append]

/-- The backup name and the output path, for a timestamp without separator. -/
theorem backup_cases (env : Env) (d : String) (hnow : sep ∉ env.now.data) :
    isSpecial (resolve d) = true ∨
    (under (resolve d) (resolve (backupBuildDir env d)) = true ∧
      resolve d ≠ resolve (backupBuildDir env d)) ∨
    (∃ P e f, resolve d = P ++ [e] ∧ resolve (backupBuildDir env d) = P ++ [f] ∧ e ≠ f) := by
  by_cases hd : d = ""
  · left; subst hd; decide
  · rw [resolve_backupBuildDir]
    apply resolve_backup d _ hd
    · intro h
      rcases List.mem_append.1 h with h | h
      · revert h; decide
      · exact hnow h
    · rw [List.length_append]
      exact Nat.le_trans (by decide) (Nat.le_add_right _ _)

theorem prefix_antisymm {a b : Path} (h1 : a <+: b) (h2 : b <+: a) : a = b :=
  List.IsPrefix.eq_of_length h1 (Nat.le_antisymm h1.length_le h2.length_le)

theorem concat_not_leading {P : Path} {e f : String} (h : e ≠ f) : ¬ (P ++ [e]) <+: (P ++ [f]) := by
  intro hp
  have hl : (P ++ [e]).length = (P ++ [f]).length := by simp
  have := List.IsPrefix.eq_of_length hp hl
  have := List.append_cancel_left this
  simp at this
  exact h this

theorem prefix_concat_cases {a P : Path} {f : String} (h : a <+: P ++ [f]) :
    a = P ++ [f] ∨ a <+: P := by
  rcases List.prefix_concat_iff.1 h with h1 | h1
  · left; exact h1
  · right; exact h1

/-- What the rename aside did, when it worked: output and backup are siblings
and the output tree moved to the backup name. -/
theorem aside_some (env : Env) (d : String) (s s1 : FS) (hnow : sep ∉ env.now.data)
    (h : rename s (resolve d) (resolve (backupBuildDir env d)) = some s1) :
    (∃ P e f, resolve d = P ++ [e] ∧ resolve (backupBuildDir env d) = P ++ [f] ∧ e ≠ f) ∧
    (∀ x ∈ s, resolve (backupBuildDir env d) <+: x.1 → x.1 = resolve (backupBuildDir env d)) ∧
    (∀ y ∈ s1, ¬ resolve d <+: y.1) ∧
    subtree s1 (resolve (backupBuildDir env d)) = subtree s (resolve d) := by
  obtain ⟨ho, hn, hex, hcase⟩ := rename_some _ _ _ _ h
  have hsib : ∃ P e f, resolve d = P ++ [e] ∧ resolve (backupBuildDir env d) = P ++ [f] ∧ e ≠ f := by
    rcases backup_cases env d hnow with h1 | h1 | h1
    · rw [ho] at h1; exact absurd h1 (by simp)
    · exfalso
      rcases hcase with ⟨heq, _⟩ | ⟨_, hnu, _⟩
      · exact h1.2 heq
      · exact hnu ((under_iff _ _).1 h1.1)
    · exact h1
  obtain ⟨P, e, f, hout, hbak, hef⟩ := hsib
  have hne : resolve d ≠ resolve (backupBuildDir env d) := by
    rw [hout, hbak]
    intro hh
    have := List.append_cancel_left hh
    simp at this
    exact hef this
  rcases hcase with ⟨heq, _⟩ | ⟨_, hnu, hempty, hs1⟩
  · exact absurd heq hne
  · refine ⟨⟨P, e, f, hout, hbak, hef⟩, hempty, ?_, ?_⟩
    · rw [hs1]
      exact moved_old_gone s _ _ hnu hne hex hempty
    · rw [hs1]
      exact subtree_moved_new s _ _ hnu hempty

/-- What the rename into place did, when it worked after the rename aside: the
output path holds the tree that was at the temporary directory. -/
theorem into_some (env : Env) (d : String) (s s1 s2 : FS) (hnow : sep ∉ env.now.data)
    (hidx : ∃ z ∈ s, resolve env.tmpDir <+: z.1 ∧ z.1 ≠ resolve env.tmpDir)
    (h1 : rename s (resolve d) (resolve (backupBuildDir env d)) = some s1)
    (h2 : rename s1 (resolve env.tmpDir) (resolve d) = some s2) :
    subtree s2 (resolve d) = subtree s (resolve env.tmpDir) := by
  obtain ⟨⟨P, e, f, hout, hbak, hef⟩, hempty, hgone, _⟩ := aside_some env d s s1 hnow h1
  obtain ⟨_, _, ⟨x, hx, hxt⟩, hcase⟩ := rename_some _ _ _ _ h2
  have hto : ¬ resolve d <+: resolve env.tmpDir := by
    intro hp
    exact hgone x hx (hxt ▸ hp)
  have hne : resolve env.tmpDir ≠ resolve d := by
    intro heq
    exact hto (heq ▸ List.prefix_refl _)
  rcases hcase with ⟨heq, _⟩ | ⟨_, hnu, hempty2, hs2⟩
  · exact absurd heq hne
  · have hbt : ¬ resolve (backupBuildDir env d) <+: resolve env.tmpDir := by
      intro hp
      obtain ⟨z, hz, hzt, hzne⟩ := hidx
      have hzb := hempty z hz (List.IsPrefix.trans hp hzt)
      apply hzne
      rw [hzb] at hzt
      rw [hzb]
      exact prefix_antisymm hp hzt
    have htb : ¬ resolve env.tmpDir <+: resolve (backupBuildDir env d) := by
      intro hp
      rw [hbak] at hp
      rcases prefix_concat_cases hp with h | h
      · exact hbt (by rw [hbak, h])
      · apply hnu
        rw [hout]
        exact List.IsPrefix.trans h (List.prefix_append P [e])
    have hs1 : s1 = (s.filter (fun x => x.1 ≠ resolve (backupBuildDir env d))).map
        (rebase (resolve d) (resolve (backupBuildDir env d))) := by
      obtain ⟨_, _, _, hc⟩ := rename_some _ _ _ _ h1
      rcases hc with ⟨heq, _⟩ | ⟨_, _, _, hh⟩
      · exfalso
        rw [hout, hbak] at heq
        have := List.append_cancel_left heq
        simp at this
        exact hef this
      · exact hh
    rw [hs2, subtree_moved_new s1 _ _ hnu hempty2, hs1]
    exact subtree_moved_frame s _ _ _ hnu hto htb hbt

theorem siblings_incomparable {a b P : Path} {e f : String} (ha : a = P ++ [e])
    (hb : b = P ++ [f]) (hef : e ≠ f) : ¬ a <+: b ∧ ¬ b <+: a := by
  subst ha hb
  exact ⟨concat_not_leading hef, concat_not_leading (Ne.symm hef)⟩


/-! ## Rendering steps -/

theorem stat_append (fs ds : FS) (a : Path) (e : Entry) (h : stat fs a = some e) :
    stat (fs ++ ds) a = some e := by
  unfold stat at h ⊢
  split
  · rename_i hs; rw [if_pos hs] at h; exact h
  · rename_i hs
    rw [if_neg hs] at h
    rw [List.find?_append]
    cases hf : fs.find? (fun x => decide (x.1 = a)) with
    | none => rw [hf] at h; exact absurd h (by simp)
    | some x => rw [hf] at h; simpa using h

theorem stat_append_none (fs ds : FS) (a : Path) (h : stat (fs ++ ds) a = none) :
    stat fs a = none := by
  cases hs : stat fs a with
  | none => rfl
  | some e => rw [stat_append fs ds a e hs] at h; exact absurd h (by simp)

theorem mkdirStep_some (fs fs1 : FS) (a : Path) (h : mkdirStep fs a = some fs1) :
    (fs1 = fs ∧ stat fs a = some Entry.dir) ∨ (fs1 = fs ++ [(a, Entry.dir)] ∧ stat fs a = none) := by
  unfold mkdirStep at h
  split at h
  · rename_i hs; left; exact ⟨(Option.some.inj h).symm, hs⟩
  · exact absurd h (by simp)
  · rename_i hs; right; exact ⟨(Option.some.inj h).symm, hs⟩

theorem foldlM_mkdirStep (as : List Path) (fs fs1 : FS) (h : as.foldlM mkdirStep fs = some fs1) :
    ∃ ds, fs1 = fs ++ ds ∧ ∀ x ∈ ds, x.2 = Entry.dir ∧ x.1 ∈ as ∧ stat fs x.1 = none := by
  induction as generalizing fs with
  | nil =>
    simp only [List.foldlM_nil, pure, Option.some.injEq] at h
    exact ⟨[], by simp [h]⟩
  | cons a as ih =>
    rw [List.foldlM_cons] at h
    cases hm : mkdirStep fs a with
    | none => rw [hm] at h; exact absurd h (by simp [bind])
    | some f1 =>
      rw [hm] at h
      simp only [bind, Option.bind] at h
      obtain ⟨ds, hds, hall⟩ := ih f1 h
      rcases mkdirStep_some fs f1 a hm with ⟨h1, _⟩ | ⟨h1, h2⟩
      · subst h1
        refine ⟨ds, hds, ?_⟩
        intro x hx
        obtain ⟨p1, p2, p3⟩ := hall x hx
        exact ⟨p1, by simp [p2], p3⟩
      · subst h1
        refine ⟨(a, Entry.dir) :: ds, by simp [hds], ?_⟩
        intro x hx
        rcases List.mem_cons.1 hx with hx | hx
        · subst hx; exact ⟨rfl, by simp, h2⟩
        · obtain ⟨p1, p2, p3⟩ := hall x hx
          exact ⟨p1, by simp [p2], stat_append_none _ _ _ p3⟩

theorem mem_ancestors (a p : Path) : a ∈ ancestors p ↔ a <+: p ∧ a ≠ [] := by
  unfold ancestors
  cases p with
  | nil => simp
  | cons x l =>
    rw [List.inits_cons, List.tail_cons]
    constructor
    · intro h
      obtain ⟨b, hb, hba⟩ := List.mem_map.1 h
      subst hba
      exact ⟨(List.prefix_cons_inj x).2 ((List.mem_inits _ _).1 hb), by simp⟩
    · intro ⟨h1, h2⟩
      cases a with
      | nil => exact absurd rfl h2
      | cons y b =>
        have h3 := List.cons_prefix_cons.1 h1
        rw [h3.1]
        exact List.mem_map.2 ⟨b, (List.mem_inits _ _).2 h3.2, rfl⟩

/-- What `os.MkdirAll` did when it worked: it added directories, each a missing
leading part of the path. -/
theorem mkdirAll_some (fs fs1 : FS) (p : Path) (h : mkdirAll fs p = some fs1) :
    ∃ ds, fs1 = fs ++ ds ∧
      ∀ x ∈ ds, x.2 = Entry.dir ∧ (x.1 <+: p ∧ x.1 ≠ []) ∧ stat fs x.1 = none := by
  obtain ⟨ds, h1, h2⟩ := foldlM_mkdirStep _ _ _ h
  refine ⟨ds, h1, ?_⟩
  intro x hx
  obtain ⟨p1, p2, p3⟩ := h2 x hx
  exact ⟨p1, (mem_ancestors _ _).1 p2, p3⟩

theorem create_some (fs fs1 : FS) (p : Path) (c : String) (h : create fs p c = some fs1) :
    isSpecial p = false ∧ stat fs p ≠ some Entry.dir ∧
      fs1 = fs.filter (fun x => x.1 ≠ p) ++ [(p, Entry.file c)] := by
  unfold create at h
  split at h
  · exact absurd h (by simp)
  · rename_i hs
    split at h
    · exact absurd h (by simp)
    · split at h
      · exact absurd h (by simp)
      · rename_i hd
        exact ⟨by simpa using hs, hd, (Option.some.inj h).symm⟩

/-- The possible effects of `writeTmpTemplate` on the state. -/
theorem writeTmpTemplate_cases (env : Env) (tmpl name : String) (data : Data) (tmpDir : String)
    (fs : FS) :
    ((writeTmpTemplate env tmpl name data tmpDir fs).1 ≠ none ∧
      (writeTmpTemplate env tmpl name data tmpDir fs).2 = fs) ∨
    ∃ ds, (∀ x ∈ ds, x.2 = Entry.dir ∧
        (x.1 <+: resolve (Join tmpDir name) ∧ x.1 ≠ []) ∧ stat fs x.1 = none) ∧
      (((writeTmpTemplate env tmpl name data tmpDir fs).1 ≠ none ∧
        (writeTmpTemplate env tmpl name data tmpDir fs).2 = fs ++ ds) ∨
       (∃ c, isSpecial (resolve (Join (Join tmpDir name) "index.html")) = false ∧
          stat (fs ++ ds) (resolve (Join (Join tmpDir name) "index.html")) ≠ some Entry.dir ∧
          (writeTmpTemplate env tmpl name data tmpDir fs).2 =
            (fs ++ ds).filter (fun x => x.1 ≠ resolve (Join (Join tmpDir name) "index.html"))
              ++ [(resolve (Join (Join tmpDir name) "index.html"), Entry.file c)])) := by
  unfold writeTmpTemplate
  simp only []
  cases h1 : sys env (Site.pageMkdir name) (mkdirAll fs (resolve (Join tmpDir name))) with
  | none => left; simp
  | some fs1 =>
    right
    obtain ⟨ds, hds, hall⟩ := mkdirAll_some _ _ _ (sys_some _ _ _ _ h1)
    refine ⟨ds, hall, ?_⟩
    simp only []
    cases h2 : sys env (Site.pageCreate name)
        (create fs1 (resolve (Join (Join tmpDir name) "index.html")) (env.exec tmpl data).1) with
    | none => left; simp [hds]
    | some fs2 =>
      right
      obtain ⟨p1, p2, p3⟩ := create_some _ _ _ _ (sys_some _ _ _ _ h2)
      refine ⟨(env.exec tmpl data).1, p1, ?_, ?_⟩
      · rw [← hds]; exact p2
      · rw [← hds]; exact p3


/-! ## Invariants of rendering -/

/-- An invariant that every page write keeps, for keys satisfying `K`, is kept
by the loop over the modules. -/
theorem writeModules_preserves (Inv : FS → Prop) (K : String → Prop) (env : Env)
    (tmpDir : String)
    (hstep : ∀ tmpl name data fs, K name → Inv fs →
      Inv (writeTmpTemplate env tmpl name data tmpDir fs).2) :
    ∀ (ms : Modules) (fs : FS), (∀ m ∈ ms, K m.1) → Inv fs →
      Inv (writeModules env tmpDir ms fs).2 := by
  intro ms
  induction ms with
  | nil => intro fs _ h; exact h
  | cons m ms ih =>
    intro fs hK h
    obtain ⟨module, config⟩ := m
    unfold writeModules
    have h1 := hstep "module.gotmpl" module (Data.module module config) fs
      (hK (module, config) (by simp)) h
    cases hw : writeTmpTemplate env "module.gotmpl" module (Data.module module config) tmpDir fs with
    | mk r fs1 =>
      rw [hw] at h1
      cases r with
      | some e => exact h1
      | none => exact ih fs1 (fun x hx => hK x (by simp [hx])) h1

/-- The same for the whole rendering part. -/
theorem render_preserves (Inv : FS → Prop) (K : String → Prop) (env : Env) (baseURL : String)
    (hstep : ∀ tmpl name data fs, K name → Inv fs →
      Inv (writeTmpTemplate env tmpl name data env.tmpDir fs).2)
    (ms : Modules) (fs : FS) (h0 : K "") (hK : ∀ m ∈ ms, K m.1) (h : Inv fs) :
    Inv (render env baseURL ms fs).2 := by
  unfold render
  have h1 := hstep "index.gotmpl" "" (Data.index baseURL ms) fs h0 h
  cases hw : writeTmpTemplate env "index.gotmpl" "" (Data.index baseURL ms) env.tmpDir fs with
  | mk r fs1 =>
    rw [hw] at h1
    cases r with
    | some e => exact h1
    | none =>
      have h2 := writeModules_preserves Inv K env env.tmpDir hstep ms fs1 hK h1
      simp only []
      cases hm : writeModules env env.tmpDir ms fs1 with
      | mk r2 fs2 =>
        rw [hm] at h2
        cases r2 with
        | some e => exact h2
        | none => exact h2

theorem find_filter_ne (l : FS) (a q : Path) (h : a ≠ q) :
    (l.filter (fun x => x.1 ≠ q)).find? (fun x => decide (x.1 = a))
      = l.find? (fun x => decide (x.1 = a)) := by
  induction l with
  | nil => rfl
  | cons x l ih =>
    by_cases hx : x.1 = q
    · have hxa : ¬ x.1 = a := fun hh => h (hh ▸ hx)
      rw [List.filter_cons_of_neg (by simp [hx]), List.find?_cons_of_neg _ (by simp [hxa]), ih]
    · rw [List.filter_cons_of_pos (by simp [hx])]
      by_cases hxa : x.1 = a
      · rw [List.find?_cons_of_pos _ (by simp [hxa]), List.find?_cons_of_pos _ (by simp [hxa])]
      · rw [List.find?_cons_of_neg _ (by simp [hxa]), List.find?_cons_of_neg _ (by simp [hxa]),
          ih]

theorem stat_filter_ne (l : FS) (a q : Path) (h : a ≠ q) :
    stat (l.filter (fun x => x.1 ≠ q)) a = stat l a := by
  unfold stat
  rw [find_filter_ne l a q h]

/-- A page write keeps every key that exists. -/
theorem writeTmpTemplate_keys (env : Env) (tmpl name : String) (data : Data) (tmpDir : String)
    (fs : FS) (p : Path) (h : ∃ x ∈ fs, x.1 = p) :
    ∃ x ∈ (writeTmpTemplate env tmpl name data tmpDir fs).2, x.1 = p := by
  obtain ⟨x, hx, hxp⟩ := h
  rcases writeTmpTemplate_cases env tmpl name data tmpDir fs with ⟨_, h1⟩ | ⟨ds, _, h1⟩
  · rw [h1]; exact ⟨x, hx, hxp⟩
  · rcases h1 with ⟨_, h2⟩ | ⟨c, _, _, h2⟩
    · rw [h2]; exact ⟨x, by simp [hx], hxp⟩
    · rw [h2]
      by_cases hq : p = resolve (Join (Join tmpDir name) "index.html")
      · exact ⟨(resolve (Join (Join tmpDir name) "index.html"), Entry.file c),
          List.mem_append_right _ (List.mem_singleton.2 rfl), hq.symm⟩
      · refine ⟨x, ?_, hxp⟩
        apply List.mem_append_left
        apply List.mem_filter.2
        refine ⟨by simp [hx], ?_⟩
        simp only [ne_eq, decide_eq_true_eq]
        rw [hxp]; exact hq

/-- A page write keeps every directory that exists. -/
theorem writeTmpTemplate_stat_dir (env : Env) (tmpl name : String) (data : Data)
    (tmpDir : String) (fs : FS) (a : Path) (h : stat fs a = some Entry.dir) :
    stat (writeTmpTemplate env tmpl name data tmpDir fs).2 a = some Entry.dir := by
  rcases writeTmpTemplate_cases env tmpl name data tmpDir fs with ⟨_, h1⟩ | ⟨ds, _, h1⟩
  · rw [h1]; exact h
  · have ha := stat_append fs ds a _ h
    rcases h1 with ⟨_, h2⟩ | ⟨c, _, hnd, h2⟩
    · rw [h2]; exact ha
    · rw [h2]
      have hne : a ≠ resolve (Join (Join tmpDir name) "index.html") := by
        intro hh
        rw [hh] at ha
        exact hnd ha
      apply stat_append
      rw [stat_filter_ne _ _ _ hne]
      exact ha

/-- A successful page write leaves the page file in the state. -/
theorem writeTmpTemplate_file (env : Env) (tmpl name : String) (data : Data) (tmpDir : String)
    (fs : FS) (h : (writeTmpTemplate env tmpl name data tmpDir fs).1 = none) :
    ∃ x ∈ (writeTmpTemplate env tmpl name data tmpDir fs).2,
      x.1 = resolve (Join (Join tmpDir name) "index.html") := by
  rcases writeTmpTemplate_cases env tmpl name data tmpDir fs with ⟨h0, _⟩ | ⟨ds, _, h1⟩
  · exact absurd h h0
  · rcases h1 with ⟨h0, _⟩ | ⟨c, _, _, h2⟩
    · exact absurd h h0
    · rw [h2]
      exact ⟨(resolve (Join (Join tmpDir name) "index.html"), Entry.file c),
        List.mem_append_right _ (List.mem_singleton.2 rfl), rfl⟩

/-- After a successful rendering the index page exists in the temporary directory. -/
theorem render_index (env : Env) (baseURL : String) (ms : Modules) (fs s : FS)
    (h : render env baseURL ms fs = (none, s)) (ht : isSpecial (resolve env.tmpDir) = false) :
    ∃ z ∈ s, resolve env.tmpDir <+: z.1 ∧ z.1 ≠ resolve env.tmpDir := by
  have hkey : ∃ x ∈ s, x.1 = resolve env.tmpDir ++ ["index.html"] := by
    unfold render at h
    cases hw : writeTmpTemplate env "index.gotmpl" "" (Data.index baseURL ms) env.tmpDir fs with
    | mk r fs1 =>
      rw [hw] at h
      cases r with
      | some e => simp at h
      | none =>
        have h1 := writeTmpTemplate_file env "index.gotmpl" "" (Data.index baseURL ms)
          env.tmpDir fs (by rw [hw])
        rw [hw, resolve_Join_index _ _ ht noDotDot_empty, plainElems_empty] at h1
        simp only [List.append_nil] at h1
        have h2 := writeModules_preserves
          (fun f => ∃ x ∈ f, x.1 = resolve env.tmpDir ++ ["index.html"]) (fun _ => True)
          env env.tmpDir
          (fun tmpl name data f _ hf => writeTmpTemplate_keys env tmpl name data _ f _ hf)
          ms fs1 (fun _ _ => trivial) h1
        simp only [] at h
        cases hm : writeModules env env.tmpDir ms fs1 with
        | mk r2 fs2 =>
          rw [hm] at h h2
          cases r2 with
          | some e => simp at h
          | none =>
            simp only [Prod.mk.injEq, true_and] at h
            rw [← h]; exact h2
  obtain ⟨x, hx, hxk⟩ := hkey
  refine ⟨x, hx, ?_, ?_⟩
  · rw [hxk]; exact List.prefix_append _ _
  · rw [hxk]
    intro hh
    have := congrArg List.length hh
    simp at this


/-! ## More on the publish steps -/

theorem removeAll_some (fs s : FS) (p : Path) (h : removeAll fs p = some s) :
    s = fs.filter (fun x => ¬ under p x.1) := by
  unfold removeAll at h
  split at h
  · exact absurd h (by simp)
  · exact (Option.some.inj h).symm

/-- After both renames worked, the temporary directory was neither inside nor
above the output directory. -/
theorem into_unrelated (env : Env) (d : String) (s s1 s2 : FS) (hnow : sep ∉ env.now.data)
    (h1 : rename s (resolve d) (resolve (backupBuildDir env d)) = some s1)
    (h2 : rename s1 (resolve env.tmpDir) (resolve d) = some s2) :
    ¬ resolve env.tmpDir <+: resolve d ∧ ¬ resolve d <+: resolve env.tmpDir := by
  obtain ⟨_, _, hgone, _⟩ := aside_some env d s s1 hnow h1
  obtain ⟨_, _, ⟨x, hx, hxt⟩, hcase⟩ := rename_some _ _ _ _ h2
  have hto : ¬ resolve d <+: resolve env.tmpDir := fun hp => hgone x hx (hxt ▸ hp)
  refine ⟨?_, hto⟩
  rcases hcase with ⟨heq, _⟩ | ⟨_, hnu, _, _⟩
  · exact absurd (heq ▸ List.prefix_refl _) hto
  · exact hnu

/-- The recovery rename, when it works, puts the prior tree back. -/
theorem back_some (env : Env) (d : String) (s s1 s3 : FS) (hnow : sep ∉ env.now.data)
    (h1 : rename s (resolve d) (resolve (backupBuildDir env d)) = some s1)
    (h3 : rename s1 (resolve (backupBuildDir env d)) (resolve d) = some s3) :
    subtree s3 (resolve d) = subtree s (resolve d) := by
  obtain ⟨⟨P, e, f, hout, hbak, hef⟩, _, _, hb⟩ := aside_some env d s s1 hnow h1
  obtain ⟨_, _, _, hcase⟩ := rename_some _ _ _ _ h3
  have hinc := siblings_incomparable hout hbak hef
  rcases hcase with ⟨heq, _⟩ | ⟨_, hnu, hempty, hs3⟩
  · exact absurd (heq ▸ List.prefix_refl _) hinc.2
  · rw [hs3, subtree_moved_new s1 _ _ hnu hempty, hb]

/-- Removing the backup leaves the tree at the output path alone. -/
theorem remove_backup_frame (env : Env) (d : String) (s s1 s2 s3 : FS)
    (hnow : sep ∉ env.now.data)
    (h1 : rename s (resolve d) (resolve (backupBuildDir env d)) = some s1)
    (h3 : removeAll s2 (resolve (backupBuildDir env d)) = some s3) :
    subtree s3 (resolve d) = subtree s2 (resolve d) := by
  obtain ⟨⟨P, e, f, hout, hbak, hef⟩, _, _, _⟩ := aside_some env d s s1 hnow h1
  have hinc := siblings_incomparable hout hbak hef
  rw [removeAll_some _ _ _ h3]
  exact subtree_removed_frame s2 _ _ hinc.1 hinc.2

/-- The deferred removal of the temporary directory leaves the tree at `p` alone
when `p` is neither inside nor above the temporary directory. -/
theorem cleanup_frame (env : Env) (fs : FS) (p : Path)
    (h1 : ¬ resolve env.tmpDir <+: p) (h2 : ¬ p <+: resolve env.tmpDir) :
    subtree (cleanup env fs) p = subtree fs p := by
  unfold cleanup
  cases h : sys env Site.removeTmp (removeAll fs (resolve env.tmpDir)) with
  | none => rfl
  | some s =>
    rw [Option.getD_some, removeAll_some _ _ _ (sys_some _ _ _ _ h)]
    exact subtree_removed_frame fs _ _ h2 h1

/-- The backup name is not above the temporary directory when the rename aside
worked on a rendered state. -/
theorem backup_not_above_tmp (env : Env) (d : String) (s s1 : FS) (hnow : sep ∉ env.now.data)
    (hidx : ∃ z ∈ s, resolve env.tmpDir <+: z.1 ∧ z.1 ≠ resolve env.tmpDir)
    (h1 : rename s (resolve d) (resolve (backupBuildDir env d)) = some s1) :
    ¬ resolve (backupBuildDir env d) <+: resolve env.tmpDir := by
  obtain ⟨_, hempty, _, _⟩ := aside_some env d s s1 hnow h1
  intro hp
  obtain ⟨z, hz, hzt, hzne⟩ := hidx
  have hzb := hempty z hz (List.IsPrefix.trans hp hzt)
  apply hzne
  rw [hzb] at hzt
  rw [hzb]
  exact prefix_antisymm hp hzt


/-! ## The steps before rendering -/

/-- Either `run` returns early with an error or a panic, or every step up to
`os.MkdirTemp` worked. -/
theorem setup_cases (env : Env) (baseURL modulesFile buildDir : Option String) (fs : FS) :
    (∃ o f, setup env baseURL modulesFile buildDir fs = Sum.inl (o, f) ∧ o ≠ Outcome.ok) ∨
    (∃ b m d decoded modules fs1 fs2, baseURL = some b ∧ modulesFile = some m ∧
      buildDir = some d ∧ d ≠ "" ∧ fillDefaults decoded = some modules ∧
      mkdirAll fs (resolve d) = some fs1 ∧ mkdirTemp fs1 (resolve env.tmpDir) = some fs2 ∧
      setup env baseURL modulesFile buildDir fs = Sum.inr (Ready.mk b d modules fs2)) := by
  unfold setup
  cases baseURL with
  | none => left; exact ⟨_, _, rfl, by simp⟩
  | some b =>
    by_cases hb : b = ""
    · left; exact ⟨Outcome.error "-base-url is required", fs, by simp [hb], by simp⟩
    cases modulesFile with
    | none => left; exact ⟨Outcome.error "-modules is required", fs, by simp [hb], by simp⟩
    | some m =>
      by_cases hm : m = ""
      · left; exact ⟨Outcome.error "-modules is required", fs, by simp [hb, hm], by simp⟩
      cases buildDir with
      | none =>
        left; exact ⟨Outcome.error "-build-dir is required", fs, by simp [hb, hm], by simp⟩
      | some d =>
        by_cases hd : d = ""
        · left
          exact ⟨Outcome.error "-build-dir is required", fs, by simp [hb, hm, hd], by simp⟩
        simp only [hb, hm, hd, if_false]
        cases hrd : (if env.fault Site.readFile = true then none
            else readFile fs (resolve m)) with
        | none => left; exact ⟨_, _, rfl, by simp⟩
        | some json =>
          simp only []
          cases hdec : env.decode json with
          | none => left; exact ⟨_, _, rfl, by simp⟩
          | some decoded =>
            simp only []
            cases hfill : fillDefaults decoded with
            | none => left; exact ⟨_, _, rfl, by simp⟩
            | some modules =>
              simp only []
              cases hmk : sys env Site.mkdirBuild (mkdirAll fs (resolve d)) with
              | none => left; exact ⟨_, _, rfl, by simp⟩
              | some fs1 =>
                simp only []
                cases hp : env.fault Site.parseTemplates with
                | true => left; exact ⟨_, _, rfl, by simp⟩
                | false =>
                  simp only [Bool.false_eq_true, if_false]
                  cases hmt : sys env Site.mkdirTemp (mkdirTemp fs1 (resolve env.tmpDir)) with
                  | none => left; exact ⟨_, _, rfl, by simp⟩
                  | some fs2 =>
                    right
                    exact ⟨b, m, d, decoded, modules, fs1, fs2, rfl, rfl, rfl, hd, hfill,
                      sys_some _ _ _ _ hmk, sys_some _ _ _ _ hmt, rfl⟩

/-- A successful `renderAndPublish`: rendering and both renames worked. -/
theorem renderAndPublish_ok (env : Env) (b d : String) (modules : Modules) (fs : FS)
    (hok : (renderAndPublish env b d modules fs).1 = Outcome.ok) :
    ∃ s s1 s2, render env b modules fs = (none, s) ∧
      rename s (resolve d) (resolve (backupBuildDir env d)) = some s1 ∧
      rename s1 (resolve env.tmpDir) (resolve d) = some s2 ∧
      (renderAndPublish env b d modules fs).2
        = cleanup env ((sys env Site.removeBackup
            (removeAll s2 (resolve (backupBuildDir env d)))).getD s2) := by
  unfold renderAndPublish at hok ⊢
  cases hr : render env b modules fs with
  | mk e s =>
    rw [hr] at hok
    cases e with
    | some e => simp at hok
    | none =>
      simp only [] at hok ⊢
      unfold publish at hok ⊢
      simp only [] at hok ⊢
      cases h1 : sys env Site.renameAside
          (rename s (resolve d) (resolve (backupBuildDir env d))) with
      | none => rw [h1] at hok; simp at hok
      | some s1 =>
        rw [h1] at hok
        simp only [] at hok ⊢
        cases h2 : sys env Site.renameInto (rename s1 (resolve env.tmpDir) (resolve d)) with
        | none => rw [h2] at hok; simp at hok
        | some s2 =>
          exact ⟨s, s1, s2, rfl, sys_some _ _ _ _ h1, sys_some _ _ _ _ h2, rfl⟩


/-! ## Directories made before and during rendering -/

theorem stat_mkdirStep (fs f1 : FS) (a : Path) (h : mkdirStep fs a = some f1) :
    stat f1 a = some Entry.dir := by
  rcases mkdirStep_some fs f1 a h with ⟨h1, h2⟩ | ⟨h1, h2⟩
  · rw [h1]; exact h2
  · rw [h1]
    unfold stat at h2 ⊢
    split
    · rfl
    · rename_i hs
      rw [if_neg hs] at h2
      have hnone : fs.find? (fun x => decide (x.1 = a)) = none := by
        cases hf : fs.find? (fun x => decide (x.1 = a)) with
        | none => rfl
        | some x => rw [hf] at h2; simp at h2
      rw [List.find?_append, hnone]
      simp

theorem foldlM_mkdirStep_stat (as : List Path) (fs fs1 : FS)
    (h : as.foldlM mkdirStep fs = some fs1) : ∀ a ∈ as, stat fs1 a = some Entry.dir := by
  induction as generalizing fs with
  | nil => intro a ha; simp at ha
  | cons b as ih =>
    rw [List.foldlM_cons] at h
    cases hm : mkdirStep fs b with
    | none => rw [hm] at h; exact absurd h (by simp [bind])
    | some f1 =>
      rw [hm] at h
      simp only [bind, Option.bind] at h
      intro a ha
      rcases List.mem_cons.1 ha with ha | ha
      · subst ha
        obtain ⟨ds, hds, _⟩ := foldlM_mkdirStep as f1 fs1 h
        rw [hds]
        exact stat_append _ _ _ _ (stat_mkdirStep fs f1 a hm)
      · exact ih f1 h a ha

/-- After `os.MkdirAll` worked the path is a directory. -/
theorem mkdirAll_stat (fs fs1 : FS) (p : Path) (hp : p ≠ [])
    (h : mkdirAll fs p = some fs1) : stat fs1 p = some Entry.dir :=
  foldlM_mkdirStep_stat _ _ _ h p ((mem_ancestors p p).2 ⟨List.prefix_refl p, hp⟩)

theorem resolve_ne_nil (p : String) : resolve p ≠ [] := by
  unfold resolve
  intro h
  exact splitSep_ne_nil _ (List.map_eq_nil_iff.1 h)

theorem mkdirTemp_some (fs fs1 : FS) (p : Path) (h : mkdirTemp fs p = some fs1) :
    isSpecial p = false ∧ (∀ x ∈ fs, ¬ p <+: x.1) ∧ fs1 = fs ++ [(p, Entry.dir)] := by
  unfold mkdirTemp at h
  split at h
  · exact absurd h (by simp)
  · rename_i hs
    split at h
    · exact absurd h (by simp)
    · rename_i hany
      split at h
      · exact absurd h (by simp)
      · refine ⟨by simpa using hs, ?_, (Option.some.inj h).symm⟩
        intro x hx hp
        apply hany
        exact List.any_eq_true.2 ⟨x, hx, (under_iff _ _).2 hp⟩

/-- A page write for a key without `..` element creates entries only below the
temporary directory, when that directory and its parents exist. -/
theorem writeTmpTemplate_confined (env : Env) (tmpl name : String) (data : Data)
    (tmpDir : String) (fs : FS) (ht : isSpecial (resolve tmpDir) = false)
    (hk : noDotDot name = true)
    (htmp : ∀ a, a <+: resolve tmpDir → a ≠ [] → stat fs a = some Entry.dir) :
    ∀ x ∈ (writeTmpTemplate env tmpl name data tmpDir fs).2,
      x ∈ fs ∨ (resolve tmpDir <+: x.1 ∧ x.1 ≠ resolve tmpDir) := by
  have hds : ∀ ds : FS, (∀ x ∈ ds, x.2 = Entry.dir ∧
      (x.1 <+: resolve (Join tmpDir name) ∧ x.1 ≠ []) ∧ stat fs x.1 = none) →
      ∀ x ∈ ds, resolve tmpDir <+: x.1 ∧ x.1 ≠ resolve tmpDir := by
    intro ds hall x hx
    obtain ⟨_, ⟨hp, hne⟩, hst⟩ := hall x hx
    rw [resolve_Join tmpDir name ht hk] at hp
    have hnt : ¬ x.1 <+: resolve tmpDir := by
      intro hh
      rw [htmp x.1 hh hne] at hst
      exact absurd hst (by simp)
    refine ⟨?_, fun hh => hnt (hh ▸ List.prefix_refl _)⟩
    rcases prefix_comparable hp (List.prefix_append (resolve tmpDir) (plainElems name)) with h | h
    · exact absurd h hnt
    · exact h
  intro x hx
  rcases writeTmpTemplate_cases env tmpl name data tmpDir fs with ⟨_, h1⟩ | ⟨ds, hall, h1⟩
  · rw [h1] at hx; exact Or.inl hx
  · rcases h1 with ⟨_, h2⟩ | ⟨c, _, _, h2⟩
    · rw [h2] at hx
      rcases List.mem_append.1 hx with h | h
      · exact Or.inl h
      · exact Or.inr (hds ds hall x h)
    · rw [h2] at hx
      rcases List.mem_append.1 hx with h | h
      · have h3 := (List.mem_filter.1 h).1
        rcases List.mem_append.1 h3 with h4 | h4
        · exact Or.inl h4
        · exact Or.inr (hds ds hall x h4)
      · right
        rw [List.mem_singleton.1 h, resolve_Join_index tmpDir name ht hk]
        simp only []
        constructor
        · rw [List.append_assoc]; exact List.prefix_append _ _
        · intro hh
          have := congrArg List.length hh
          simp at this


/-! ## Counting the rendered files -/

theorem filesOf_subtree_nil (t : Path) : filesOf (subtree [] t) = [] := rfl

theorem filesOf_subtree_cons (x : Path × Entry) (l : FS) (t : Path) :
    filesOf (subtree (x :: l) t) = fileBelow t x ++ filesOf (subtree l t) := by
  unfold subtree fileBelow
  rw [List.filterMap_cons]
  by_cases hu : under t x.1 = true
  · rw [if_pos hu, if_pos hu]
    simp only []
    cases hx : x.2 with
    | dir => simp [filesOf, List.filterMap_cons]
    | file c => simp [filesOf, List.filterMap_cons]
  · rw [if_neg hu, if_neg hu]
    rfl

theorem filesOf_subtree_append (a b : FS) (t : Path) :
    filesOf (subtree (a ++ b) t) = filesOf (subtree a t) ++ filesOf (subtree b t) := by
  induction a with
  | nil => rfl
  | cons x a ih =>
    rw [List.cons_append, filesOf_subtree_cons, filesOf_subtree_cons, ih, List.append_assoc]

theorem filesOf_subtree_dirs (ds : FS) (t : Path) (h : ∀ x ∈ ds, x.2 = Entry.dir) :
    filesOf (subtree ds t) = [] := by
  induction ds with
  | nil => rfl
  | cons x ds ih =>
    rw [filesOf_subtree_cons, ih (fun y hy => h y (by simp [hy]))]
    have hx := h x (by simp)
    unfold fileBelow
    split
    · rw [hx]; rfl
    · rfl

theorem fileBelow_mem (t : Path) (x : Path × Entry) (p : Path) (h : p ∈ fileBelow t x) :
    x.1 = t ++ p := by
  unfold fileBelow at h
  split at h
  · rename_i hu
    obtain ⟨r, hr⟩ := (under_iff _ _).1 hu
    cases hx : x.2 with
    | dir => rw [hx] at h; simp at h
    | file c =>
      rw [hx] at h
      simp only [List.mem_singleton] at h
      rw [h, ← hr]
      simp
  · simp at h

theorem filesOf_subtree_filter (l : FS) (t rel : Path) :
    filesOf (subtree (l.filter (fun x => x.1 ≠ t ++ rel)) t)
      = (filesOf (subtree l t)).filter (fun p => p ≠ rel) := by
  induction l with
  | nil => rfl
  | cons x l ih =>
    rw [filesOf_subtree_cons, List.filter_append, ← ih]
    by_cases hx : x.1 = t ++ rel
    · rw [List.filter_cons_of_neg (by simp [hx])]
      have : (fileBelow t x).filter (fun p => decide (p ≠ rel)) = [] := by
        apply List.filter_eq_nil_iff.2
        intro p hp
        have := fileBelow_mem t x p hp
        rw [hx] at this
        have := List.append_cancel_left this
        simp [this]
      rw [this]
      rfl
    · rw [List.filter_cons_of_pos (by simp [hx]), filesOf_subtree_cons]
      congr 1
      symm
      apply List.filter_eq_self.2
      intro p hp
      have := fileBelow_mem t x p hp
      simp only [ne_eq, decide_eq_true_eq]
      intro hpr
      exact hx (by rw [this, hpr])

theorem filesOf_subtree_file (t rel : Path) (c : String) :
    filesOf (subtree [(t ++ rel, Entry.file c)] t) = [rel] := by
  rw [filesOf_subtree_cons, filesOf_subtree_nil]
  unfold fileBelow
  rw [if_pos (under_append _ _)]
  simp

/-- A successful page write for a key without `..` element adds exactly the page
file to the files below the temporary directory, replacing an older file at the
same path. -/
theorem writeTmpTemplate_files (env : Env) (tmpl name : String) (data : Data) (tmpDir : String)
    (fs : FS) (ht : isSpecial (resolve tmpDir) = false) (hk : noDotDot name = true)
    (h : (writeTmpTemplate env tmpl name data tmpDir fs).1 = none) :
    filesOf (subtree (writeTmpTemplate env tmpl name data tmpDir fs).2 (resolve tmpDir))
      = (filesOf (subtree fs (resolve tmpDir))).filter (fun p => p ≠ pageOf name)
        ++ [pageOf name] := by
  rcases writeTmpTemplate_cases env tmpl name data tmpDir fs with ⟨h0, _⟩ | ⟨ds, hall, h1⟩
  · exact absurd h h0
  · rcases h1 with ⟨h0, _⟩ | ⟨c, _, _, h2⟩
    · exact absurd h h0
    · have hq : resolve (Join (Join tmpDir name) "index.html") = resolve tmpDir ++ pageOf name := by
        rw [resolve_Join_index tmpDir name ht hk, pageOf, List.append_assoc]
      rw [h2, hq, filesOf_subtree_append, filesOf_subtree_filter, filesOf_subtree_file,
        filesOf_subtree_append, filesOf_subtree_dirs ds _ (fun x hx => (hall x hx).1),
        List.append_nil]


theorem joinSep_splitSep (l : List Char) : joinSep (splitSep l) = l := by
  induction l with
  | nil => rfl
  | cons c cs ih =>
    have hne := splitSep_ne_nil cs
    by_cases hc : c = sep
    · subst hc
      rw [splitSep_cons_sep]
      cases h : splitSep cs with
      | nil => exact absurd h hne
      | cons e es =>
        rw [h] at ih
        simp [joinSep, ih]
    · rw [splitSep_cons_ne _ _ hc]
      cases h : splitSep cs with
      | nil => exact absurd h hne
      | cons e es =>
        rw [h] at ih
        cases es with
        | nil =>
          simp only [joinSep] at ih
          simp [joinSep, ih]
        | cons f fs =>
          simp only [joinSep] at ih
          simp [joinSep, ih]

theorem splitSep_injective : Function.Injective splitSep := by
  intro a b h
  rw [← joinSep_splitSep a, ← joinSep_splitSep b, h]

theorem pageOf_plain (k : String) (hk : isPlainKey k = true) :
    pageOf k = (splitSep k.data).map String.mk ++ ["index.html"] := by
  rw [pageOf, plainElems_of_plain k hk]

theorem pageOf_injective (a b : String) (ha : isPlainKey a = true) (hb : isPlainKey b = true)
    (h : pageOf a = pageOf b) : a = b := by
  rw [pageOf_plain a ha, pageOf_plain b hb] at h
  have h1 := List.append_cancel_right h
  have h2 := splitSep_injective (map_mk_injective h1)
  cases a
  cases b
  simp_all

theorem pageOf_empty : pageOf "" = ["index.html"] := by decide

theorem pageOf_ne_index (k : String) (hk : isPlainKey k = true) : pageOf k ≠ pageOf "" := by
  rw [pageOf_plain k hk, pageOf_empty]
  intro h
  have := congrArg List.length h
  simp only [List.length_append, List.length_map, List.length_cons, List.length_nil] at this
  have hl : 0 < (splitSep k.data).length := List.length_pos.2 (splitSep_ne_nil _)
  omega

/-- The files below the temporary directory after the loop over the modules. -/
theorem writeModules_files (env : Env) (tmpDir : String)
    (ht : isSpecial (resolve tmpDir) = false) :
    ∀ (ms : Modules) (f s : FS) (W : List Path), writeModules env tmpDir ms f = (none, s) →
      filesOf (subtree f (resolve tmpDir)) = W →
      (∀ m ∈ ms, noDotDot m.1 = true) →
      (ms.map (fun m => pageOf m.1)).Nodup →
      (∀ m ∈ ms, pageOf m.1 ∉ W) →
      filesOf (subtree s (resolve tmpDir)) = W ++ ms.map (fun m => pageOf m.1) := by
  intro ms
  induction ms with
  | nil =>
    intro f s W h hW _ _ _
    simp only [writeModules, Prod.mk.injEq, true_and] at h
    rw [← h, hW]; simp
  | cons m ms ih =>
    intro f s W h hW hk hnd hnot
    obtain ⟨module, config⟩ := m
    unfold writeModules at h
    have hstep := writeTmpTemplate_files env "module.gotmpl" module (Data.module module config)
      tmpDir f ht (hk (module, config) (by simp))
    cases hw : writeTmpTemplate env "module.gotmpl" module (Data.module module config) tmpDir f with
    | mk r f1 =>
      rw [hw] at h hstep
      cases r with
      | some e => simp at h
      | none =>
        simp only [] at h
        have hf1 := hstep rfl
        simp only [] at hf1
        have hnotW : pageOf module ∉ W := hnot (module, config) (by simp)
        have hfil : W.filter (fun p => p ≠ pageOf module) = W := by
          apply List.filter_eq_self.2
          intro p hp
          simp only [ne_eq, decide_eq_true_eq]
          intro hh
          exact hnotW (hh ▸ hp)
        rw [hW, hfil] at hf1
        rw [List.map_cons, List.nodup_cons] at hnd
        have := ih f1 s (W ++ [pageOf module]) h hf1
          (fun x hx => hk x (by simp [hx])) hnd.2
          (by
            intro x hx hmem
            rcases List.mem_append.1 hmem with h1 | h1
            · exact hnot x (by simp [hx]) h1
            · apply hnd.1
              have h2 : pageOf x.1 = pageOf module := List.mem_singleton.1 h1
              exact List.mem_map.2 ⟨x, hx, h2⟩)
        rw [this]
        simp

/-- The files below a fresh temporary directory after a successful rendering,
for keys without `..` element whose page paths are pairwise distinct and differ
from the path of the index page. -/
theorem render_files (env : Env) (baseURL : String) (ms : Modules) (fs s : FS)
    (ht : isSpecial (resolve env.tmpDir) = false)
    (h : render env baseURL ms fs = (none, s))
    (hfresh : filesOf (subtree fs (resolve env.tmpDir)) = [])
    (hk : ∀ m ∈ ms, noDotDot m.1 = true)
    (hnd : (pageOf "" :: ms.map (fun m => pageOf m.1)).Nodup) :
    filesOf (subtree s (resolve env.tmpDir)) = pageOf "" :: ms.map (fun m => pageOf m.1) := by
  rw [List.nodup_cons] at hnd
  have hidx : ∀ m ∈ ms, pageOf m.1 ∉ [pageOf ""] := by
    intro m hm hmem
    apply hnd.1
    rw [← List.mem_singleton.1 hmem]
    exact List.mem_map.2 ⟨m, hm, rfl⟩
  unfold render at h
  have hstep := writeTmpTemplate_files env "index.gotmpl" "" (Data.index baseURL ms)
    env.tmpDir fs ht noDotDot_empty
  cases hw : writeTmpTemplate env "index.gotmpl" "" (Data.index baseURL ms) env.tmpDir fs with
  | mk r f1 =>
    rw [hw] at h hstep
    cases r with
    | some e => simp at h
    | none =>
      simp only [] at h
      have hf1 := hstep rfl
      simp only [] at hf1
      rw [hfresh] at hf1
      simp only [List.filter_nil, List.nil_append] at hf1
      cases hm : writeModules env env.tmpDir ms f1 with
      | mk r2 f2 =>
        rw [hm] at h
        cases r2 with
        | some e => simp at h
        | none =>
          simp only [Prod.mk.injEq, true_and] at h
          rw [← h]
          have := writeModules_files env env.tmpDir ht ms f1 f2 [pageOf ""] hm hf1 hk hnd.2 hidx
          rw [this]; rfl

/-- Pairwise distinct keys that are clean relative paths have no `..` element
and pairwise distinct page paths, none the path of the index page. -/
theorem pages_nodup_of_plain (ms : Modules) (hk : ∀ m ∈ ms, isPlainKey m.1 = true)
    (hnd : (ms.map Prod.fst).Nodup) :
    (∀ m ∈ ms, noDotDot m.1 = true) ∧ (pageOf "" :: ms.map (fun m => pageOf m.1)).Nodup := by
  refine ⟨fun m hm => noDotDot_of_plain m.1 (hk m hm), ?_⟩
  have hnd2 : (ms.map (fun m => pageOf m.1)).Nodup := by
    have : ms.map (fun m => pageOf m.1) = (ms.map Prod.fst).map pageOf := by
      rw [List.map_map]; rfl
    rw [this]
    apply List.Nodup.map_on _ hnd
    intro a ha b hb hab
    obtain ⟨x, hx, hxa⟩ := List.mem_map.1 ha
    obtain ⟨y, hy, hyb⟩ := List.mem_map.1 hb
    exact pageOf_injective a b (hxa ▸ hk x hx) (hyb ▸ hk y hy) hab
  rw [List.nodup_cons]
  refine ⟨?_, hnd2⟩
  intro hmem
  obtain ⟨m, hm, hmeq⟩ := List.mem_map.1 hmem
  exact pageOf_ne_index m.1 (hk m hm) hmeq

theorem filesOf_fresh (fs1 : FS) (t : Path) (h : ∀ x ∈ fs1, ¬ t <+: x.1) :
    filesOf (subtree (fs1 ++ [(t, Entry.dir)]) t) = [] := by
  rw [filesOf_subtree_append, subtree_eq_nil fs1 t h,
    filesOf_subtree_dirs [(t, Entry.dir)] t (by simp)]
  rfl


/-! ## Rendering leaves the output directory alone -/

theorem subtree_append (a b : FS) (d : Path) :
    subtree (a ++ b) d = subtree a d ++ subtree b d := by
  unfold subtree
  rw [List.filterMap_append]

theorem subtree_filter_ne (l : FS) (d q : Path) (h : ¬ d <+: q) :
    subtree (l.filter (fun x => x.1 ≠ q)) d = subtree l d := by
  unfold subtree
  rw [List.filterMap_filter]
  apply List.filterMap_congr
  intro x _
  by_cases hxq : x.1 = q
  · have hd : ¬ d <+: x.1 := hxq ▸ h
    rw [if_neg (decide_ne_not_true hxq), if_neg (not_under_of hd)]
  · rw [if_pos (decide_ne_true hxq)]

/-- A page write for a key without `..` element does not change the tree at a
path that is neither inside nor above the temporary directory. -/
theorem writeTmpTemplate_frame (env : Env) (tmpl name : String) (data : Data)
    (tmpDir : String) (fs : FS) (d : Path) (ht : isSpecial (resolve tmpDir) = false)
    (hk : noDotDot name = true)
    (htmp : ∀ a, a <+: resolve tmpDir → a ≠ [] → stat fs a = some Entry.dir)
    (h1 : ¬ resolve tmpDir <+: d) (h2 : ¬ d <+: resolve tmpDir) :
    subtree (writeTmpTemplate env tmpl name data tmpDir fs).2 d = subtree fs d := by
  have hout : ∀ p : Path, resolve tmpDir <+: p → ¬ d <+: p := by
    intro p hp hd
    rcases prefix_comparable hp hd with h | h
    · exact h1 h
    · exact h2 h
  have hconf := writeTmpTemplate_confined env tmpl name data tmpDir fs ht hk htmp
  have hds : ∀ ds : FS, (∀ x ∈ ds, x.2 = Entry.dir ∧
      (x.1 <+: resolve (Join tmpDir name) ∧ x.1 ≠ []) ∧ stat fs x.1 = none) →
      subtree ds d = [] := by
    intro ds hall
    apply subtree_eq_nil
    intro x hx
    obtain ⟨_, ⟨hp, hne⟩, hst⟩ := hall x hx
    rw [resolve_Join tmpDir name ht hk] at hp
    have hnt : ¬ x.1 <+: resolve tmpDir := by
      intro hh
      rw [htmp x.1 hh hne] at hst
      exact absurd hst (by simp)
    rcases prefix_comparable hp (List.prefix_append (resolve tmpDir) (plainElems name)) with h | h
    · exact absurd h hnt
    · exact hout _ h
  have hq : ¬ d <+: resolve (Join (Join tmpDir name) "index.html") := by
    rw [resolve_Join_index tmpDir name ht hk, List.append_assoc]
    exact hout _ (List.prefix_append _ _)
  rcases writeTmpTemplate_cases env tmpl name data tmpDir fs with ⟨_, h3⟩ | ⟨ds, hall, h3⟩
  · rw [h3]
  · rcases h3 with ⟨_, h4⟩ | ⟨c, _, _, h4⟩
    · rw [h4, subtree_append, hds ds hall, List.append_nil]
    · rw [h4, subtree_append, subtree_filter_ne _ _ _ hq, subtree_append, hds ds hall,
        List.append_nil]
      have : subtree [(resolve (Join (Join tmpDir name) "index.html"), Entry.file c)] d = [] := by
        apply subtree_eq_nil
        intro x hx
        rw [List.mem_singleton.1 hx]
        exact hq
      rw [this, List.append_nil]

/-- Rendering for keys without `..` element does not change the tree at a path
that is neither inside nor above the temporary directory. -/
theorem render_frame (env : Env) (baseURL : String) (modules : Modules) (fs : FS) (d : Path)
    (ht : isSpecial (resolve env.tmpDir) = false)
    (htmp : ∀ a ∈ ancestors (resolve env.tmpDir), stat fs a = some Entry.dir)
    (hk : ∀ m ∈ modules, noDotDot m.1 = true)
    (h1 : ¬ resolve env.tmpDir <+: d) (h2 : ¬ d <+: resolve env.tmpDir) :
    subtree (render env baseURL modules fs).2 d = subtree fs d := by
  have h := render_preserves
    (fun f => (∀ a, a <+: resolve env.tmpDir → a ≠ [] → stat f a = some Entry.dir) ∧
      subtree f d = subtree fs d)
    (fun name => noDotDot name = true) env baseURL
    (fun tmpl name data f hname hf => by
      refine ⟨fun a h3 h4 => writeTmpTemplate_stat_dir env tmpl name data _ f a (hf.1 a h3 h4), ?_⟩
      rw [writeTmpTemplate_frame env tmpl name data env.tmpDir f d ht hname hf.1 h1 h2]
      exact hf.2)
    modules fs noDotDot_empty hk
    ⟨fun a h3 h4 => htmp a ((mem_ancestors _ _).2 ⟨h3, h4⟩), rfl⟩
  exact h.2


/-! ## Default branches and helper values -/

theorem fillDefaults_eq_map (ms : Modules) (h : ∀ e ∈ ms, e.2 ≠ none) :
    fillDefaults ms = some (ms.map (fun e => (e.1, e.2.map fillConfig))) := by
  induction ms with
  | nil => rfl
  | cons e ms ih =>
    obtain ⟨k, c⟩ := e
    cases c with
    | none => exact absurd rfl (h (k, none) (by simp))
    | some c =>
      have := ih (fun x hx => h x (by simp [hx]))
      simp [fillDefaults, this]

theorem fillConfig_branch (c : ModuleConfig) :
    (fillConfig c).DefaultBranch = (if c.DefaultBranch = "" then "main" else c.DefaultBranch) ∧
    (fillConfig c).GitURL = c.GitURL ∧ (fillConfig c).Description = c.Description := by
  unfold fillConfig
  split <;> simp_all

/-- C1. For a decoded mapping in which every record is present, the
default-branch loop ends without panic; it keeps the module names, and at every
position the branch becomes `"main"` if it was empty and is unchanged otherwise,
while repository URL and description are unchanged; no record is left with an
empty branch, so a module page is rendered with branch `"main"` when none was
given. -/
theorem fillDefaults_fills_main (ms : Modules) (h : ∀ e ∈ ms, e.2 ≠ none) :
    ∃ out, fillDefaults ms = some out ∧ out.map Prod.fst = ms.map Prod.fst ∧
      (∀ (i : Nat) (k : String) (c : ModuleConfig), ms[i]? = some (k, some c) →
        ∃ c2 : ModuleConfig, out[i]? = some (k, some c2) ∧
        c2.DefaultBranch = (if c.DefaultBranch = "" then "main" else c.DefaultBranch) ∧
        c2.GitURL = c.GitURL ∧ c2.Description = c.Description) ∧
      (∀ (k : String) (c2 : ModuleConfig), (k, some c2) ∈ out → c2.DefaultBranch ≠ "") := by
  refine ⟨_, fillDefaults_eq_map ms h, ?_, ?_, ?_⟩
  · simp [List.map_map, Function.comp]
  · intro i k c hi
    refine ⟨fillConfig c, ?_, fillConfig_branch c⟩
    rw [List.getElem?_map, hi]
    rfl
  · intro k c2 hm
    obtain ⟨e, he, heq⟩ := List.mem_map.1 hm
    obtain ⟨k1, c1⟩ := e
    cases c1 with
    | none => simp at heq
    | some c =>
      simp only [Option.map_some', Prod.mk.injEq, Option.some.injEq] at heq
      rw [← heq.2, (fillConfig_branch c).1]
      split
      · decide
      · assumption

/-- Witness of C1: a record without branch and one with branch `dev`. -/
theorem fillDefaults_fills_main_witness :
    ∃ out, fillDefaults [("foo", some emptyConfig), ("bar", some (ModuleConfig.mk "g" "dev" "d"))]
        = some out ∧
      out.map Prod.fst = ["foo", "bar"] ∧
      (∀ (i : Nat) (k : String) (c : ModuleConfig),
        [("foo", some emptyConfig), ("bar", some (ModuleConfig.mk "g" "dev" "d"))][i]?
          = some (k, some c) → ∃ c2 : ModuleConfig, out[i]? = some (k, some c2) ∧
        c2.DefaultBranch = (if c.DefaultBranch = "" then "main" else c.DefaultBranch) ∧
        c2.GitURL = c.GitURL ∧ c2.Description = c.Description) ∧
      (∀ (k : String) (c2 : ModuleConfig), (k, some c2) ∈ out → c2.DefaultBranch ≠ "") :=
  fillDefaults_fills_main _ (by decide)

/-- C2. The helper values are literal concatenations: `modulePath` is the base
URL, a slash and the module name, `moduleDocURL` is the documentation host
prefix followed by that path; nothing is normalised, so a base URL ending in a
slash gives a double slash. -/
theorem helper_values_literal (b m : String) :
    modulePath b m = b ++ "/" ++ m ∧
    moduleDocURL b m = "https://pkg.go.dev/" ++ b ++ "/" ++ m ∧
    modulePath "https://example.com" "foo/bar" = "https://example.com/foo/bar" ∧
    moduleDocURL "https://example.com" "foo/bar"
      = "https://pkg.go.dev/https://example.com/foo/bar" ∧
    modulePath "https://example.com/" "foo/bar" = "https://example.com//foo/bar" := by
  refine ⟨rfl, ?_, by decide, by decide, by decide⟩
  simp [moduleDocURL, modulePath, String.append_assoc]

/-! ## Input failures -/

/-- C5 as amended.  When the modules file cannot be read, or `json.Unmarshal`
returns an error on its content, `run` returns an error and the filesystem is
unchanged: nothing is created or modified, the output directory included. -/
theorem run_input_failure_pure (env : Env) (baseURL modulesFile buildDir : Option String)
    (fs : FS)
    (h : ∀ m, modulesFile = some m → env.fault Site.readFile = false →
      ∀ json, readFile fs (resolve m) = some json → env.decode json = none) :
    ∃ msg, run env baseURL modulesFile buildDir fs = (Outcome.error msg, fs) := by
  unfold run setup
  cases baseURL with
  | none => exact ⟨_, rfl⟩
  | some b =>
    by_cases hb : b = ""
    · exact ⟨"-base-url is required", by simp [hb]⟩
    cases modulesFile with
    | none => exact ⟨"-modules is required", by simp [hb]⟩
    | some m =>
      by_cases hm : m = ""
      · exact ⟨"-modules is required", by simp [hb, hm]⟩
      cases buildDir with
      | none => exact ⟨"-build-dir is required", by simp [hb, hm]⟩
      | some d =>
        by_cases hd : d = ""
        · exact ⟨"-build-dir is required", by simp [hb, hm, hd]⟩
        simp only [hb, hm, hd, if_false]
        cases hf : env.fault Site.readFile with
        | true => exact ⟨"failed to read modules.json", by simp⟩
        | false =>
          simp only [Bool.false_eq_true, if_false]
          cases hr : readFile fs (resolve m) with
          | none => exact ⟨"failed to read modules.json", rfl⟩
          | some json =>
            have := h m rfl hf json hr
            simp only [this]
            exact ⟨"failed to unmarshal modules.json", rfl⟩

/-- C5 refuted as stated: a modules file holding the JSON literal `null` exists
and is not a JSON object of module records, yet `json.Unmarshal` accepts it and
leaves the mapping empty; `run` goes on, creates the missing output directory
`build`, renders the index page and returns without error. -/
theorem input_null_accepted :
    readFile nullFS (resolve "modules.json") = some "null" ∧
    nullEnv.decode "null" = some [] ∧
    stat nullFS (resolve "build") = none ∧
    run nullEnv (some "https://example.com") (some "modules.json") (some "build") nullFS
      = (Outcome.ok, nullFS ++
          [(["build"], Entry.dir), (["build", "index.html"], Entry.file "index.gotmpl")]) := by
  decide

/-- Witness of C5 as amended: the modules file is missing. -/
theorem run_input_failure_pure_witness :
    ∃ msg, run (sampleEnv [] []) (some "https://example.com") (some "missing.json")
      (some "build") sampleFS = (Outcome.error msg, sampleFS) :=
  run_input_failure_pure (sampleEnv [] []) (some "https://example.com") (some "missing.json")
    (some "build") sampleFS (by
      intro m hm _ json hj
      injection hm with hm
      subst hm
      have hnone : readFile sampleFS (resolve "missing.json") = none := by decide
      rw [hnone] at hj
      exact absurd hj (by simp))

/-- C10, evaluated at the failing input: a modules file `{"a": null}` decodes to
a mapping with a nil record; the default-branch loop dereferences it and `run`
panics instead of returning, so the process ends with status 2 and a panic
report, not with the status 1 and the single message of an error value. -/
theorem run_nil_record_panics :
    run (sampleEnv [("a", none)] []) (some "https://example.com") (some "modules.json")
      (some "build") sampleFS = (Outcome.panic, sampleFS) ∧
    main (sampleEnv [("a", none)] []) false "https://example.com" "modules.json" "build" sampleFS
      = (2, ["panic: runtime error: invalid memory address or nil pointer dereference"],
          sampleFS) := by
  decide


/-! ## Atomic publish -/

/-- C8 as amended.  In the state after every publish step (rename aside, rename
into place, recovery rename, backup removal), whichever of them is refused, the
output path holds exactly the content it had when the publish steps started, or
exactly the tree rendered in the temporary directory, or it is absent while
that prior content is intact under the backup name.  The steps start on a state
`s` reached by a successful rendering from `fs`; the content the output path
has in `s` is the content it had in `fs`, before rendering, whenever rendering
is confined: no key has a `..` element and the temporary directory, which
exists with its parents, lies neither inside nor above the output directory. -/
theorem publish_atomic (env : Env) (baseURL buildDir : String) (modules : Modules) (fs s : FS)
    (hnow : sep ∉ env.now.data) (hr : render env baseURL modules fs = (none, s)) :
    (∀ t ∈ (publish env buildDir s).2,
      subtree t (resolve buildDir) = subtree s (resolve buildDir) ∨
      subtree t (resolve buildDir) = subtree s (resolve env.tmpDir) ∨
      (subtree t (resolve buildDir) = [] ∧
        subtree t (resolve (backupBuildDir env buildDir)) = subtree s (resolve buildDir))) ∧
    ((∀ m ∈ modules, noDotDot m.1 = true) →
      isSpecial (resolve env.tmpDir) = false →
      (∀ a ∈ ancestors (resolve env.tmpDir), stat fs a = some Entry.dir) →
      ¬ resolve env.tmpDir <+: resolve buildDir →
      ¬ resolve buildDir <+: resolve env.tmpDir →
      subtree s (resolve buildDir) = subtree fs (resolve buildDir)) := by
  refine ⟨?_, ?_⟩
  swap
  · intro hk ht htmp h1 h2
    have := render_frame env baseURL modules fs (resolve buildDir) ht htmp hk h1 h2
    rw [hr] at this
    exact this
  intro t ht
  unfold publish at ht
  simp only [] at ht
  cases h1 : sys env Site.renameAside
      (rename s (resolve buildDir) (resolve (backupBuildDir env buildDir))) with
  | none =>
    rw [h1] at ht
    simp only [List.mem_singleton] at ht
    left; rw [ht]
  | some s1 =>
    rw [h1] at ht
    have r1 := sys_some _ _ _ _ h1
    obtain ⟨_, _, hgone, hb⟩ := aside_some env buildDir s s1 hnow r1
    have hs1 : subtree s1 (resolve buildDir) = [] ∧
        subtree s1 (resolve (backupBuildDir env buildDir)) = subtree s (resolve buildDir) :=
      ⟨subtree_eq_nil _ _ hgone, hb⟩
    simp only [] at ht
    cases h2 : sys env Site.renameInto (rename s1 (resolve env.tmpDir) (resolve buildDir)) with
    | none =>
      rw [h2] at ht
      simp only [List.mem_cons, List.mem_singleton, List.not_mem_nil, or_false] at ht
      rcases ht with ht | ht | ht
      · right; right; rw [ht]; exact hs1
      · right; right; rw [ht]; exact hs1
      · cases h3 : sys env Site.renameBack
            (rename s1 (resolve (backupBuildDir env buildDir)) (resolve buildDir)) with
        | none =>
          rw [h3] at ht
          right; right; rw [ht]; exact hs1
        | some s3 =>
          rw [h3] at ht
          left; rw [ht]
          exact back_some env buildDir s s1 s3 hnow r1 (sys_some _ _ _ _ h3)
    | some s2 =>
      rw [h2] at ht
      have r2 := sys_some _ _ _ _ h2
      have hsp : isSpecial (resolve env.tmpDir) = false := (rename_some _ _ _ _ r2).1
      have hidx := render_index env baseURL modules fs s hr hsp
      have hs2 := into_some env buildDir s s1 s2 hnow hidx r1 r2
      simp only [List.mem_cons, List.mem_singleton, List.not_mem_nil, or_false] at ht
      rcases ht with ht | ht | ht
      · right; right; rw [ht]; exact hs1
      · right; left; rw [ht]; exact hs2
      · cases h3 : sys env Site.removeBackup
            (removeAll s2 (resolve (backupBuildDir env buildDir))) with
        | none =>
          rw [h3] at ht
          right; left; rw [ht]; exact hs2
        | some s3 =>
          rw [h3] at ht
          right; left; rw [ht, Option.getD_some]
          rw [remove_backup_frame env buildDir s s1 s2 s3 hnow r1 (sys_some _ _ _ _ h3)]
          exact hs2


/-- C6. When `run` succeeds, the tree at the output path afterwards is exactly
the tree that rendering left in the temporary directory; whatever the output
directory held before is gone from the output path. -/
theorem run_full_replacement (env : Env) (baseURL modulesFile buildDir : Option String)
    (fs : FS) (hnow : sep ∉ env.now.data)
    (hok : (run env baseURL modulesFile buildDir fs).1 = Outcome.ok) :
    ∃ r s, setup env baseURL modulesFile buildDir fs = Sum.inr r ∧
      buildDir = some r.buildDir ∧
      render env r.baseURL r.modules r.fs = (none, s) ∧
      subtree (run env baseURL modulesFile buildDir fs).2 (resolve r.buildDir)
        = subtree s (resolve env.tmpDir) := by
  unfold run at hok ⊢
  rcases setup_cases env baseURL modulesFile buildDir fs with
    ⟨o, f, hs, ho⟩ | ⟨b, m, d, decoded, modules, fs1, fs2, _, _, hd, _, _, _, _, hs⟩
  · rw [hs] at hok
    exact absurd hok ho
  · rw [hs] at hok ⊢
    simp only [] at hok ⊢
    obtain ⟨s, s1, s2, hr, r1, r2, hfin⟩ := renderAndPublish_ok env b d modules fs2 hok
    refine ⟨Ready.mk b d modules fs2, s, rfl, hd, hr, ?_⟩
    have hsp : isSpecial (resolve env.tmpDir) = false := (rename_some _ _ _ _ r2).1
    have hidx := render_index env b modules fs2 s hr hsp
    have hs2 := into_some env d s s1 s2 hnow hidx r1 r2
    have hun := into_unrelated env d s s1 s2 hnow r1 r2
    simp only []
    rw [hfin, cleanup_frame env _ _ hun.1 hun.2]
    cases h3 : sys env Site.removeBackup (removeAll s2 (resolve (backupBuildDir env d))) with
    | none => exact hs2
    | some s3 =>
      rw [Option.getD_some,
        remove_backup_frame env d s s1 s2 s3 hnow r1 (sys_some _ _ _ _ h3)]
      exact hs2

/-- C7 as amended.  When the rename aside worked and the rename into place was
refused, `run` returns the error of the rename into place.  The recovery rename
is best effort: if it works, the output path holds again the content it had
when the publish steps started; if it is refused too, the output path is absent
and that content is intact under the backup name.  The temporary directory is
taken to lie neither inside nor above the output directory. -/
theorem rollback_best_effort (env : Env) (baseURL buildDir : String) (modules : Modules)
    (fs s s1 : FS) (hnow : sep ∉ env.now.data)
    (hr : render env baseURL modules fs = (none, s))
    (hout : ¬ resolve env.tmpDir <+: resolve buildDir ∧
      ¬ resolve buildDir <+: resolve env.tmpDir)
    (h1 : sys env Site.renameAside
      (rename s (resolve buildDir) (resolve (backupBuildDir env buildDir))) = some s1)
    (h2 : sys env Site.renameInto (rename s1 (resolve env.tmpDir) (resolve buildDir)) = none) :
    (renderAndPublish env baseURL buildDir modules fs).1
      = Outcome.error "failed to rename tmp dir to build dir" ∧
    ((∃ s3, sys env Site.renameBack
        (rename s1 (resolve (backupBuildDir env buildDir)) (resolve buildDir)) = some s3) →
      subtree (renderAndPublish env baseURL buildDir modules fs).2 (resolve buildDir)
        = subtree s (resolve buildDir)) ∧
    (sys env Site.renameBack
        (rename s1 (resolve (backupBuildDir env buildDir)) (resolve buildDir)) = none →
      subtree (renderAndPublish env baseURL buildDir modules fs).2 (resolve buildDir) = [] ∧
      subtree (renderAndPublish env baseURL buildDir modules fs).2
        (resolve (backupBuildDir env buildDir)) = subtree s (resolve buildDir)) := by
  have r1 := sys_some _ _ _ _ h1
  obtain ⟨⟨P, e, f, hP, hB, hef⟩, _, hgone, hb⟩ := aside_some env buildDir s s1 hnow r1
  have hfinal : renderAndPublish env baseURL buildDir modules fs
      = (Outcome.error "failed to rename tmp dir to build dir",
          cleanup env ((sys env Site.renameBack
            (rename s1 (resolve (backupBuildDir env buildDir)) (resolve buildDir))).getD s1)) := by
    unfold renderAndPublish
    rw [hr]
    simp only []
    unfold publish
    simp only []
    rw [h1]
    simp only []
    rw [h2]
    rfl
  rw [hfinal]
  refine ⟨rfl, ?_, ?_⟩
  · rintro ⟨s3, h3⟩
    simp only []
    rw [h3, Option.getD_some, cleanup_frame env _ _ hout.1 hout.2]
    exact back_some env buildDir s s1 s3 hnow r1 (sys_some _ _ _ _ h3)
  · intro h3
    simp only []
    rw [h3, Option.getD_none, cleanup_frame env _ _ hout.1 hout.2]
    refine ⟨subtree_eq_nil _ _ hgone, ?_⟩
    by_cases hsp : isSpecial (resolve env.tmpDir) = true
    · have : cleanup env s1 = s1 := by
        unfold cleanup sys removeAll
        rw [if_pos hsp]
        split <;> rfl
      rw [this]; exact hb
    · have hsp2 : isSpecial (resolve env.tmpDir) = false := by
        cases hh : isSpecial (resolve env.tmpDir)
        · rfl
        · exact absurd hh hsp
      have hidx := render_index env baseURL modules fs s hr hsp2
      have hbt := backup_not_above_tmp env buildDir s s1 hnow hidx r1
      have htb : ¬ resolve env.tmpDir <+: resolve (backupBuildDir env buildDir) := by
        intro hp
        rw [hB] at hp
        rcases prefix_concat_cases hp with h | h
        · exact hbt (by rw [hB, h])
        · apply hout.1
          rw [hP]
          exact List.IsPrefix.trans h (List.prefix_append P [e])
      rw [cleanup_frame env _ _ htb hbt]
      exact hb


/-- Witness of C6: the sample run replaces the old page by the rendered tree. -/
theorem run_full_replacement_witness :
    ∃ r s, setup (sampleEnv sampleModules []) (some "https://example.com")
        (some "modules.json") (some "build") sampleFS = Sum.inr r ∧
      some "build" = some r.buildDir ∧
      render (sampleEnv sampleModules []) r.baseURL r.modules r.fs = (none, s) ∧
      subtree (run (sampleEnv sampleModules []) (some "https://example.com")
        (some "modules.json") (some "build") sampleFS).2 (resolve r.buildDir)
        = subtree s (resolve (sampleEnv sampleModules []).tmpDir) :=
  run_full_replacement (sampleEnv sampleModules []) (some "https://example.com")
    (some "modules.json") (some "build") sampleFS (by decide) (by decide)

/-- C8 refuted as stated, with nothing refused by the environment.  The output
directory `/tmp/build` exists before the run and holds `old.html`; the key
`../build/x` makes rendering write `x/index.html` into it, and with
`-build-dir /tmp/build/` the backup name lies inside the output directory, so
the rename aside fails.  After that step, and when `run` returns, the output
path holds the old page together with one rendered page: neither the content
before the run, nor the tree rendered in the temporary directory, nor absent. -/
theorem publish_partial_output :
    setup (sampleEnv [("../build/x", some emptyConfig)] []) (some "https://example.com")
        (some "modules.json") (some "/tmp/build/") sampleLiveFS
      = Sum.inr (Ready.mk "https://example.com" "/tmp/build/"
          [("../build/x", some (ModuleConfig.mk "" "main" ""))]
          (sampleLiveFS ++ [(["", "tmp", "mygopkg1"], Entry.dir)])) ∧
    subtree sampleLiveFS (resolve "/tmp/build/")
      = [([], Entry.dir), (["old.html"], Entry.file "old")] ∧
    (publish (sampleEnv [("../build/x", some emptyConfig)] []) "/tmp/build/"
      sampleLiveRendered).2 = [sampleLiveRendered] ∧
    subtree sampleLiveRendered (resolve "/tmp/build/")
      = [([], Entry.dir), (["old.html"], Entry.file "old"), (["x"], Entry.dir),
         (["x", "index.html"], Entry.file "module.gotmpl")] ∧
    subtree sampleLiveRendered
        (resolve (sampleEnv [("../build/x", some emptyConfig)] []).tmpDir)
      = [([], Entry.dir), (["index.html"], Entry.file "index.gotmpl")] ∧
    run (sampleEnv [("../build/x", some emptyConfig)] []) (some "https://example.com")
        (some "modules.json") (some "/tmp/build/") sampleLiveFS
      = (Outcome.error "failed to remove build dir", sampleLiveFS ++
          [(["", "tmp", "build", "x"], Entry.dir),
           (["", "tmp", "build", "x", "index.html"], Entry.file "module.gotmpl")]) := by
  decide

/-- Witness of C8 as amended: the publish steps on the rendered sample state, with the
rename into place refused. -/
theorem publish_atomic_witness :
    (∀ t ∈ (publish (sampleEnv sampleModules [Site.renameInto]) "build" sampleRendered).2,
      subtree t (resolve "build") = subtree sampleRendered (resolve "build") ∨
      subtree t (resolve "build") = subtree sampleRendered
        (resolve (sampleEnv sampleModules [Site.renameInto]).tmpDir) ∨
      (subtree t (resolve "build") = [] ∧
        subtree t (resolve (backupBuildDir (sampleEnv sampleModules [Site.renameInto]) "build"))
          = subtree sampleRendered (resolve "build"))) ∧
    ((∀ m ∈ sampleFilled, noDotDot m.1 = true) →
      isSpecial (resolve (sampleEnv sampleModules [Site.renameInto]).tmpDir) = false →
      (∀ a ∈ ancestors (resolve (sampleEnv sampleModules [Site.renameInto]).tmpDir),
        stat sampleStart a = some Entry.dir) →
      ¬ resolve (sampleEnv sampleModules [Site.renameInto]).tmpDir <+: resolve "build" →
      ¬ resolve "build" <+: resolve (sampleEnv sampleModules [Site.renameInto]).tmpDir →
      subtree sampleRendered (resolve "build") = subtree sampleStart (resolve "build")) :=
  publish_atomic (sampleEnv sampleModules [Site.renameInto]) "https://example.com" "build"
    sampleFilled sampleStart sampleRendered (by decide) (by decide)

/-- C7 refuted as stated: the rename aside works, the rename into place and the
recovery rename are both refused; `run` returns the error of the rename into
place and the output path is absent, the old page lying under the backup name. -/
theorem rollback_refused :
    (run (sampleEnv sampleModules [Site.renameInto, Site.renameBack])
      (some "https://example.com") (some "modules.json") (some "build") sampleFS).1
      = Outcome.error "failed to rename tmp dir to build dir" ∧
    subtree sampleFS (resolve "build") = [([], Entry.dir), (["old.html"], Entry.file "old")] ∧
    subtree (run (sampleEnv sampleModules [Site.renameInto, Site.renameBack])
      (some "https://example.com") (some "modules.json") (some "build") sampleFS).2
      (resolve "build") = [] ∧
    subtree (run (sampleEnv sampleModules [Site.renameInto, Site.renameBack])
      (some "https://example.com") (some "modules.json") (some "build") sampleFS).2
      (resolve (backupBuildDir (sampleEnv sampleModules [Site.renameInto, Site.renameBack])
        "build"))
      = [([], Entry.dir), (["old.html"], Entry.file "old")] := by
  decide

/-- Witness of C7 as amended: the rename into place is refused, the recovery
rename works. -/
theorem rollback_best_effort_witness :
    (renderAndPublish (sampleEnv sampleModules [Site.renameInto]) "https://example.com" "build"
        sampleFilled sampleStart).1 = Outcome.error "failed to rename tmp dir to build dir" ∧
    ((∃ s3, sys (sampleEnv sampleModules [Site.renameInto]) Site.renameBack
        (rename sampleAside
          (resolve (backupBuildDir (sampleEnv sampleModules [Site.renameInto]) "build"))
          (resolve "build")) = some s3) →
      subtree (renderAndPublish (sampleEnv sampleModules [Site.renameInto])
        "https://example.com" "build" sampleFilled sampleStart).2 (resolve "build")
        = subtree sampleRendered (resolve "build")) ∧
    (sys (sampleEnv sampleModules [Site.renameInto]) Site.renameBack
        (rename sampleAside
          (resolve (backupBuildDir (sampleEnv sampleModules [Site.renameInto]) "build"))
          (resolve "build")) = none →
      subtree (renderAndPublish (sampleEnv sampleModules [Site.renameInto])
        "https://example.com" "build" sampleFilled sampleStart).2 (resolve "build") = [] ∧
      subtree (renderAndPublish (sampleEnv sampleModules [Site.renameInto])
        "https://example.com" "build" sampleFilled sampleStart).2
        (resolve (backupBuildDir (sampleEnv sampleModules [Site.renameInto]) "build"))
        = subtree sampleRendered (resolve "build")) :=
  rollback_best_effort (sampleEnv sampleModules [Site.renameInto]) "https://example.com" "build"
    sampleFilled sampleStart sampleRendered sampleAside (by decide) (by decide) (by decide)
    (by decide) (by decide)

/-! ## The output directory is created first -/

/-- C9 as amended.  `run` creates the output directory with `os.MkdirAll` before
the temporary directory is made, so whether or not it existed at the start, the
output directory exists as a directory when rendering starts and still does when
the rename aside is reached: a missing output directory does not make that step
fail. -/
theorem output_dir_exists_at_publish (env : Env) (baseURL modulesFile buildDir : Option String)
    (fs : FS) (r : Ready) (s : FS)
    (hs : setup env baseURL modulesFile buildDir fs = Sum.inr r)
    (hr : render env r.baseURL r.modules r.fs = (none, s)) :
    buildDir = some r.buildDir ∧ stat r.fs (resolve r.buildDir) = some Entry.dir ∧
      stat s (resolve r.buildDir) = some Entry.dir := by
  rcases setup_cases env baseURL modulesFile buildDir fs with
    ⟨o, f, hs2, _⟩ | ⟨b, m, d, decoded, modules, fs1, fs2, _, _, hd, _, _, hmk, hmt, hs2⟩
  · rw [hs2] at hs; exact absurd hs (by simp)
  · rw [hs2] at hs
    have hr2 : r = Ready.mk b d modules fs2 := (Sum.inr.inj hs).symm
    subst hr2
    have h1 := mkdirAll_stat fs fs1 (resolve d) (resolve_ne_nil d) hmk
    obtain ⟨_, _, hfs2⟩ := mkdirTemp_some _ _ _ hmt
    have h2 : stat fs2 (resolve d) = some Entry.dir := by
      rw [hfs2]; exact stat_append _ _ _ _ h1
    refine ⟨hd, h2, ?_⟩
    have h3 := render_preserves (fun f => stat f (resolve d) = some Entry.dir) (fun _ => True)
      env b (fun tmpl name data f _ hf => writeTmpTemplate_stat_dir env tmpl name data _ f _ hf)
      modules fs2 trivial (fun _ _ => trivial) h2
    simp only [] at hr
    rw [hr] at h3
    exact h3

/-- C9 refuted as stated: started without the output directory `out`, the sample
run succeeds and leaves the rendered tree at `out`. -/
theorem missing_output_dir_succeeds :
    stat sampleFS (resolve "out") = none ∧
    run (sampleEnv sampleModules []) (some "https://example.com") (some "modules.json")
      (some "out") sampleFS
      = (Outcome.ok, sampleFS ++
          [(["out"], Entry.dir), (["out", "index.html"], Entry.file "index.gotmpl"),
           (["out", "foo"], Entry.dir),
           (["out", "foo", "index.html"], Entry.file "module.gotmpl"),
           (["out", "bar"], Entry.dir), (["out", "bar", "baz"], Entry.dir),
           (["out", "bar", "baz", "index.html"], Entry.file "module.gotmpl")]) := by
  decide

/-- Witness of C9 as amended: the sample run with the missing directory `out`. -/
theorem output_dir_exists_at_publish_witness :
    some "out" = some sampleReadyOut.buildDir ∧
    stat sampleReadyOut.fs (resolve sampleReadyOut.buildDir) = some Entry.dir ∧
    stat (render (sampleEnv sampleModules []) sampleReadyOut.baseURL sampleReadyOut.modules
      sampleReadyOut.fs).2 (resolve sampleReadyOut.buildDir) = some Entry.dir :=
  output_dir_exists_at_publish (sampleEnv sampleModules []) (some "https://example.com")
    (some "modules.json") (some "out") sampleFS sampleReadyOut
    (render (sampleEnv sampleModules []) sampleReadyOut.baseURL sampleReadyOut.modules
      sampleReadyOut.fs).2 (by decide) (by decide)

/-! ## Rendering stays in the temporary directory -/

/-- C4 as amended.  For module keys without a `..` element, every entry that
rendering creates (index page and module pages, directories and files) lies
below the temporary directory, which exists together with its parents. -/
theorem render_confined (env : Env) (baseURL : String) (modules : Modules) (fs : FS)
    (ht : isSpecial (resolve env.tmpDir) = false)
    (htmp : ∀ a ∈ ancestors (resolve env.tmpDir), stat fs a = some Entry.dir)
    (hk : ∀ m ∈ modules, noDotDot m.1 = true) :
    ∀ x ∈ (render env baseURL modules fs).2,
      x ∈ fs ∨ (resolve env.tmpDir <+: x.1 ∧ x.1 ≠ resolve env.tmpDir) := by
  have h := render_preserves
    (fun f => (∀ a, a <+: resolve env.tmpDir → a ≠ [] → stat f a = some Entry.dir) ∧
      ∀ x ∈ f, x ∈ fs ∨ (resolve env.tmpDir <+: x.1 ∧ x.1 ≠ resolve env.tmpDir))
    (fun name => noDotDot name = true) env baseURL
    (fun tmpl name data f hname hf => by
      refine ⟨fun a h1 h2 => writeTmpTemplate_stat_dir env tmpl name data _ f a (hf.1 a h1 h2), ?_⟩
      intro x hx
      rcases writeTmpTemplate_confined env tmpl name data env.tmpDir f ht hname hf.1 x hx
        with h | h
      · exact hf.2 x h
      · exact Or.inr h)
    modules fs noDotDot_empty hk
    ⟨fun a h1 h2 => htmp a ((mem_ancestors _ _).2 ⟨h1, h2⟩), fun x hx => Or.inl hx⟩
  exact h.2

/-- C4 refuted as stated: the key `../../etc/x` makes rendering create
`/etc/x/index.html`, outside the temporary directory `/tmp/mygopkg1`. -/
theorem render_escapes_tmpDir :
    (["", "etc", "x", "index.html"], Entry.file "module.gotmpl") ∈
      (render (sampleEnv [] []) "https://example.com"
        [("../../etc/x", some emptyConfig)] sampleStart).2 ∧
    (["", "etc", "x", "index.html"], Entry.file "module.gotmpl") ∉ sampleStart ∧
    under (resolve (sampleEnv [] []).tmpDir) ["", "etc", "x", "index.html"] = false := by
  decide

/-- Witness of C4 as amended: the sample mapping, whose keys `foo` and `bar/baz`
have no `..` element. -/
theorem render_confined_witness :
    (∀ m ∈ sampleFilled, noDotDot m.1 = true) ∧
    (∀ x ∈ (render (sampleEnv sampleModules []) "https://example.com" sampleFilled sampleStart).2,
      x ∈ sampleStart ∨ (resolve (sampleEnv sampleModules []).tmpDir <+: x.1 ∧
        x.1 ≠ resolve (sampleEnv sampleModules []).tmpDir)) :=
  ⟨by decide,
    render_confined (sampleEnv sampleModules []) "https://example.com" sampleFilled sampleStart
      (by decide) (by decide) (by decide)⟩


/-! ## The number of pages -/

/-- C3 as amended.  Let `run` succeed on a mapping with N entries whose keys
have no `..` element and whose page paths, as cleaned by `filepath.Join` (the
elements of the key without the empty and `.` ones, then `index.html`), are
pairwise distinct and differ from the path `index.html` of the index page.  Then
the regular files in the output directory afterwards are exactly `index.html`
and one `<module>/index.html` per key: N + 1 files at pairwise distinct paths. -/
theorem page_count_distinct_pages (env : Env) (baseURL modulesFile buildDir : Option String)
    (fs : FS) (r : Ready) (hnow : sep ∉ env.now.data)
    (hs : setup env baseURL modulesFile buildDir fs = Sum.inr r)
    (hok : (run env baseURL modulesFile buildDir fs).1 = Outcome.ok)
    (hk : ∀ m ∈ r.modules, noDotDot m.1 = true)
    (hnd : (pageOf "" :: r.modules.map (fun m => pageOf m.1)).Nodup) :
    filesOf (subtree (run env baseURL modulesFile buildDir fs).2 (resolve r.buildDir))
      = ["index.html"] :: r.modules.map (fun m => pageOf m.1) ∧
    (filesOf (subtree (run env baseURL modulesFile buildDir fs).2 (resolve r.buildDir))).Nodup ∧
    (filesOf (subtree (run env baseURL modulesFile buildDir fs).2
      (resolve r.buildDir))).length = r.modules.length + 1 := by
  unfold run at hok ⊢
  rw [hs] at hok ⊢
  simp only [] at hok ⊢
  rcases setup_cases env baseURL modulesFile buildDir fs with
    ⟨o, f, hs2, _⟩ | ⟨b, m, d, decoded, modules, fs1, fs2, _, _, hd, _, _, hmk, hmt, hs2⟩
  · rw [hs2] at hs; exact absurd hs (by simp)
  · rw [hs2] at hs
    have hr2 : r = Ready.mk b d modules fs2 := (Sum.inr.inj hs).symm
    subst hr2
    simp only [] at hok hk hnd ⊢
    obtain ⟨ht, hfresh, hfs2⟩ := mkdirTemp_some _ _ _ hmt
    obtain ⟨s, s1, s2, hr, r1, r2, hfin⟩ := renderAndPublish_ok env b d modules fs2 hok
    have hidx := render_index env b modules fs2 s hr ht
    have hs2 := into_some env d s s1 s2 hnow hidx r1 r2
    have hun := into_unrelated env d s s1 s2 hnow r1 r2
    have htree : subtree (renderAndPublish env b d modules fs2).2 (resolve d)
        = subtree s (resolve env.tmpDir) := by
      rw [hfin, cleanup_frame env _ _ hun.1 hun.2]
      cases h3 : sys env Site.removeBackup (removeAll s2 (resolve (backupBuildDir env d))) with
      | none => exact hs2
      | some s3 =>
        rw [Option.getD_some,
          remove_backup_frame env d s s1 s2 s3 hnow r1 (sys_some _ _ _ _ h3)]
        exact hs2
    have hfiles := render_files env b modules fs2 s ht hr
      (by rw [hfs2]; exact filesOf_fresh fs1 _ hfresh) hk hnd
    rw [htree, hfiles, pageOf_empty]
    rw [pageOf_empty] at hnd
    refine ⟨rfl, hnd, ?_⟩
    simp

/-- C3 refuted as stated.  The two distinct keys `a` and `./a` are cleaned to
the same page path: `run` succeeds and the output directory holds two
`index.html` files, not three.  The empty key is cleaned to the path of the
index page: `run` succeeds and the output directory holds one file, not two. -/
theorem page_count_collision :
    (["a", "./a"] : List String).Nodup ∧
    (run (sampleEnv [("a", some emptyConfig), ("./a", some emptyConfig)] [])
      (some "https://example.com") (some "modules.json") (some "build") sampleFS).1
      = Outcome.ok ∧
    filesOf (subtree (run (sampleEnv [("a", some emptyConfig), ("./a", some emptyConfig)] [])
      (some "https://example.com") (some "modules.json") (some "build") sampleFS).2
      (resolve "build")) = [["index.html"], ["a", "index.html"]] ∧
    (run (sampleEnv [("", some emptyConfig)] [])
      (some "https://example.com") (some "modules.json") (some "build") sampleFS).1
      = Outcome.ok ∧
    filesOf (subtree (run (sampleEnv [("", some emptyConfig)] [])
      (some "https://example.com") (some "modules.json") (some "build") sampleFS).2
      (resolve "build")) = [["index.html"]] := by
  decide

/-- Witness of C3 as amended: the sample mapping with the keys `foo` and
`bar/baz`; the output directory holds `index.html`, `foo/index.html` and
`bar/baz/index.html`. -/
theorem page_count_distinct_pages_witness :
    filesOf (subtree (run (sampleEnv sampleModules []) (some "https://example.com")
      (some "modules.json") (some "build") sampleFS).2 (resolve sampleReadyBuild.buildDir))
      = ["index.html"] :: sampleReadyBuild.modules.map (fun m => pageOf m.1) ∧
    (filesOf (subtree (run (sampleEnv sampleModules []) (some "https://example.com")
      (some "modules.json") (some "build") sampleFS).2
      (resolve sampleReadyBuild.buildDir))).Nodup ∧
    (filesOf (subtree (run (sampleEnv sampleModules []) (some "https://example.com")
      (some "modules.json") (some "build") sampleFS).2
      (resolve sampleReadyBuild.buildDir))).length = sampleReadyBuild.modules.length + 1 :=
  page_count_distinct_pages (sampleEnv sampleModules []) (some "https://example.com")
    (some "modules.json") (some "build") sampleFS sampleReadyBuild (by decide) (by decide)
    (by decide) (by decide) (by decide)


end Mygopkg
